import Mathlib

/-!
# tulib: the cell buffer, `Fill` and `DrawLabel`

A shallow embedding of `buffer.go`.

* Go `int` values are `Int`.  Every index that the code computes after clipping is
  bounded by `len(Cells)`, so no machine overflow is involved in the embedded code.  The
  sizes `w*h` of `NewBuffer` and `Resize` are products in `Int`: a size beyond the range
  of Go's `int`, which no allocation can serve, and the failure of an allocation are not
  part of the embedding.
* A Go string is its sequence of bytes (`GoString`).  The functions of `unicode/utf8`
  that `buffer.go` calls and the `range` loop over a string are embedded on bytes,
  with Go's treatment of malformed input (`RuneError`, width 1).
* A slice write `this.Cells[off] = c` panics when `off` is out of range; the embedding
  returns `none` there, and so does an out-of-range string slice.
-/

namespace Tulib

/-! ## Data model -/

/-- Go `rune` (an `int32`). -/
abbrev Rune := Int

/-- Style attribute of termbox (`termbox.Attribute`), stored and copied only. -/
abbrev Attribute := Nat

/-- One screen position (`termbox.Cell`). -/
structure Cell where
  Ch : Rune
  Fg : Attribute
  Bg : Attribute
deriving DecidableEq, Repr

/-- Modelled from the spec: the `Rect` type, whose declaration (rect.go) is not among the
sources; `buffer.go` builds it positionally as `Rect{0, 0, Width, Height}` and reads the
fields `X`, `Y`, `Width`, `Height`. -/
structure Rect where
  X : Int
  Y : Int
  Width : Int
  Height : Int
deriving DecidableEq, Repr

/-- Modelled from the spec: `Rect.Intersection` (rect.go is not among the sources).
"Returns the overlapping region of two rectangles", each rectangle being the half-open
region `[x, x+width) × [y, y+height)`; "Intersection of two disjoint rects has width=0 and
height=0", never negative. -/
def Rect.Intersection (a b : Rect) : Rect :=
  let x1 := max a.X b.X
  let y1 := max a.Y b.Y
  let x2 := min (a.X + a.Width) (b.X + b.Width)
  let y2 := min (a.Y + a.Height) (b.Y + b.Height)
  if x1 < x2 ∧ y1 < y2 then ⟨x1, y1, x2 - x1, y2 - y1⟩ else ⟨0, 0, 0, 0⟩

/-- The point `(x, y)` lies in the half-open region of `r`. -/
def Rect.Contains (r : Rect) (x y : Int) : Prop :=
  r.X ≤ x ∧ x < r.X + r.Width ∧ r.Y ≤ y ∧ y < r.Y + r.Height

instance (r : Rect) (x y : Int) : Decidable (r.Contains x y) := by
  unfold Rect.Contains; infer_instance

/-- Go `type Alignment int` with the constants `AlignLeft`, `AlignCenter`, `AlignRight`
(`iota`: 0, 1, 2). -/
abbrev Alignment := Int

def AlignLeft : Alignment := 0
def AlignCenter : Alignment := 1
def AlignRight : Alignment := 2

/-- Go `type Buffer struct`.  `Cells` is the slice's visible part (`len(Cells)` elements);
`Spare` is the rest of its backing array, so that `cap(Cells)` is
`Cells.length + Spare.length`. -/
structure Buffer where
  Cells : List Cell
  Spare : List Cell
  Width : Int
  Height : Int
deriving DecidableEq, Repr

structure LabelParams where
  Fg : Attribute
  Bg : Attribute
  Align : Alignment
  Ellipsis : Rune
  CenterEllipsis : Bool
deriving DecidableEq, Repr

/-- Go `var DefaultLabelParams`; termbox's `ColorDefault` is 0. -/
def DefaultLabelParams : LabelParams := ⟨0, 0, AlignLeft, 0x2026, false⟩

/-! ## Strings and `unicode/utf8` -/

abbrev Byte := Fin 256

/-- A Go string: an immutable sequence of bytes. -/
abbrev GoString := List Byte

def RuneError : Rune := 0xFFFD
def RuneSelf : Nat := 0x80
def UTFMax : Nat := 4

/-- Entries of utf8's table `first`: the high nibble indexes `acceptRanges` (or is `F`
for the one-byte cases), the low nibble is the length of the encoding. -/
def first (b : Byte) : Nat :=
  if b.val < 0x80 then 0xF0
  else if b.val < 0xC2 then 0xF1
  else if b.val < 0xE0 then 0x02
  else if b.val = 0xE0 then 0x13
  else if b.val < 0xED then 0x03
  else if b.val = 0xED then 0x23
  else if b.val < 0xF0 then 0x03
  else if b.val = 0xF0 then 0x34
  else if b.val < 0xF4 then 0x04
  else if b.val = 0xF4 then 0x44
  else 0xF1

/-- The table `acceptRanges` of utf8: bounds `(lo, hi)` of the second byte. -/
def acceptRanges (i : Nat) : Nat × Nat :=
  if i = 0 then (0x80, 0xBF)
  else if i = 1 then (0xA0, 0xBF)
  else if i = 2 then (0x80, 0x9F)
  else if i = 3 then (0x90, 0xBF)
  else if i = 4 then (0x80, 0x8F)
  else (0, 0)

/-- Byte `i` of `s` as a number (the Go code reads it only in range). -/
def byteAt (s : GoString) (i : Nat) : Nat := (s.getD i 0).val

/-- Go `utf8.DecodeRuneInString`: the first rune of `s` and its width in bytes. -/
def DecodeRuneInString (s : GoString) : Rune × Nat :=
  let n := s.length
  if n < 1 then (RuneError, 0) else
  let s0 := byteAt s 0
  let x := first (s.getD 0 0)
  if x ≥ 0xF0 then
    (if x % 2 = 1 then RuneError else (s0 : Int), 1)
  else
    let sz := x &&& 7
    let accept := acceptRanges (x >>> 4)
    if n < sz then (RuneError, 1) else
    let s1 := byteAt s 1
    if s1 < accept.1 ∨ accept.2 < s1 then (RuneError, 1) else
    if sz ≤ 2 then ((((s0 &&& 0x1F) <<< 6 ||| (s1 &&& 0x3F) : Nat) : Int), 2) else
    let s2 := byteAt s 2
    if s2 < 0x80 ∨ 0xBF < s2 then (RuneError, 1) else
    if sz ≤ 3 then
      ((((s0 &&& 0x0F) <<< 12 ||| (s1 &&& 0x3F) <<< 6 ||| (s2 &&& 0x3F) : Nat) : Int), 3)
    else
    let s3 := byteAt s 3
    if s3 < 0x80 ∨ 0xBF < s3 then (RuneError, 1) else
    ((((s0 &&& 0x07) <<< 18 ||| (s1 &&& 0x3F) <<< 12 ||| (s2 &&& 0x3F) <<< 6
        ||| (s3 &&& 0x3F) : Nat) : Int), 4)

/-- Go `utf8.RuneStart`: the byte is not a continuation byte. -/
def RuneStart (b : Nat) : Bool := b &&& 0xC0 != 0x80

/-- The backwards search of `DecodeLastRuneInString`:
`for start--; start >= lim; start-- { if RuneStart(s[start]) { break } }`,
entered with `start` already decremented.  The first argument bounds the number of
iterations; the length of `s` is always enough (`lastRuneStart_spec`). -/
def lastRuneStart (s : GoString) (lim : Int) : Nat → Int → Int
  | 0, start => start
  | k + 1, start =>
    if start ≥ lim then
      if RuneStart (byteAt s start.toNat) then start
      else lastRuneStart s lim k (start - 1)
    else start

/-- Go `utf8.DecodeLastRuneInString`: the last rune of `s` and its width in bytes. -/
def DecodeLastRuneInString (s : GoString) : Rune × Nat :=
  let e : Int := s.length
  if e = 0 then (RuneError, 0) else
  let start := e - 1
  let r := byteAt s start.toNat
  if r < RuneSelf then ((r : Int), 1) else
  let lim := if e - UTFMax < 0 then 0 else e - UTFMax
  let start := lastRuneStart s lim s.length (start - 1)
  let start := if start < 0 then 0 else start
  let d := DecodeRuneInString ((s.take e.toNat).drop start.toNat)
  if start + d.2 ≠ e then (RuneError, 1) else d

/-- The runes that `for _, r := range s` yields, in order: each step decodes one rune at
the current position and advances by its width.  The first argument bounds the number of
steps; the length of `s` is always enough, a step consuming at least one byte
(`runes_cons`). -/
def rangeRunes : Nat → GoString → List Rune
  | 0, _ => []
  | k + 1, s =>
    if s.length = 0 then []
    else (DecodeRuneInString s).1 :: rangeRunes k (s.drop (DecodeRuneInString s).2)

/-- The characters of a string, as `range` yields them. -/
def runes (s : GoString) : List Rune := rangeRunes s.length s

/-- Go `utf8.RuneCountInString`: the number of runes of `s`, erroneous and short encodings
counting as single runes of width one byte, as in `range`. -/
def RuneCountInString (s : GoString) : Int := (runes s).length

/-- The string slice `s[:hi]`; out of range is a panic. -/
def sliceTo (s : GoString) (hi : Int) : Option GoString :=
  if 0 ≤ hi ∧ hi ≤ s.length then some (s.take hi.toNat) else none

/-- The string slice `s[lo:]`; out of range is a panic. -/
def sliceFrom (s : GoString) (lo : Int) : Option GoString :=
  if 0 ≤ lo ∧ lo ≤ s.length then some (s.drop lo.toNat) else none

/-! ## The buffer operations of `buffer.go` -/

/-- The zero value of `termbox.Cell`, with which `make` fills a fresh slice. -/
def zeroCell : Cell := ⟨0, 0, 0⟩

/-- Go `NewBuffer`; `make` panics on a negative length, and the capacity of the fresh
slice is its length. -/
def NewBuffer (w h : Int) : Option Buffer :=
  if 0 ≤ w * h then some ⟨List.replicate (w * h).toNat zeroCell, [], w, h⟩ else none

/-- Go `Buffer.Rect`: the bounds `{0, 0, Width, Height}`. -/
def Buffer.Rect (b : Buffer) : Rect := ⟨0, 0, b.Width, b.Height⟩

/-- The buffer with the contents of `Cells` replaced, everything else kept. -/
def Buffer.withCells (b : Buffer) (cells : List Cell) : Buffer :=
  ⟨cells, b.Spare, b.Width, b.Height⟩

/-- The assignment `this.Cells[off] = c`; an index out of range is a panic. -/
def setCell (cells : List Cell) (off : Int) (c : Cell) : Option (List Cell) :=
  if 0 ≤ off ∧ off < cells.length then some (cells.set off.toNat c) else none

/-- The inner loop of `unsafe_fill`,
`for x := 0; x < dest.Width; x++ { this.Cells[off] = proto; off++ }`,
with the number of iterations left; returns the cells and the final `off`. -/
def fillRow (proto : Cell) : Nat → List Cell → Int → Option (List Cell × Int)
  | 0, cells, off => some (cells, off)
  | k + 1, cells, off =>
    (setCell cells off proto).bind fun cs => fillRow proto k cs (off + 1)

/-- The outer loop of `unsafe_fill`,
`for y := 0; y < dest.Height; y++ { ...; off += stride }`,
with the number of iterations left. -/
def fillRows (proto : Cell) (w : Nat) (stride : Int) : Nat → List Cell → Int →
    Option (List Cell)
  | 0, cells, _ => some cells
  | k + 1, cells, off =>
    (fillRow proto w cells off).bind fun p => fillRows proto w stride k p.1 (p.2 + stride)

/-- Go `Buffer.Resize`: "Resizes the Buffer, buffer contents are invalid after the resize."
With `nsize <= cap(this.Cells)` the slice is resliced, `this.Cells[:nsize]`, which is a
panic for a negative `nsize` and otherwise shows the first `nsize` cells of the backing
array; else `make` gives `nsize` fresh zero cells, with capacity `nsize`. -/
def Resize (b : Buffer) (nw nh : Int) : Option Buffer :=
  let nsize := nw * nh
  if nsize ≤ ((b.Cells.length + b.Spare.length : Nat) : Int) then
    if 0 ≤ nsize then
      some ⟨(b.Cells ++ b.Spare).take nsize.toNat, (b.Cells ++ b.Spare).drop nsize.toNat,
        nw, nh⟩
    else none
  else some ⟨List.replicate nsize.toNat zeroCell, [], nw, nh⟩

/-- Go `Buffer.unsafe_fill`: "doesn't check for bounds". -/
def unsafe_fill (b : Buffer) (dest : Rect) (proto : Cell) : Option Buffer :=
  let stride := b.Width - dest.Width
  let off := dest.Y * b.Width + dest.X
  (fillRows proto dest.Width.toNat stride dest.Height.toNat b.Cells off).map b.withCells

/-- Go `Buffer.Fill`: "Fills an area which is an intersection between buffer and 'dest'
with 'proto'". -/
def Fill (b : Buffer) (dest : Rect) (proto : Cell) : Option Buffer :=
  unsafe_fill b (dest.Intersection b.Rect) proto

/-- The loop of `draw_n_first_runes` over the runes that `range text` yields. -/
def drawFirst (params : LabelParams) : List Rune → List Cell → Int → Int →
    Option (List Cell)
  | [], cells, _, _ => some cells
  | r :: rs, cells, off, n =>
    if n ≤ 0 then some cells
    else (setCell cells off ⟨r, params.Fg, params.Bg⟩).bind fun cs =>
      drawFirst params rs cs (off + 1) (n - 1)

/-- Go `Buffer.draw_n_first_runes`: "draws from left to right, 'off' is the beginning
position". -/
def draw_n_first_runes (b : Buffer) (off n : Int) (params : LabelParams) (text : GoString) :
    Option Buffer :=
  (drawFirst params (runes text) b.Cells off n).map b.withCells

/-- The loop `for n > 0 { ... }` of `draw_n_last_runes`, with the number of iterations
left. -/
def drawLast (params : LabelParams) : Nat → List Cell → Int → GoString →
    Option (List Cell)
  | 0, cells, _, _ => some cells
  | k + 1, cells, off, text =>
    (setCell cells off ⟨(DecodeLastRuneInString text).1, params.Fg, params.Bg⟩).bind fun cs =>
    (sliceTo text ((text.length : Int) - ((DecodeLastRuneInString text).2 : Int))).bind
      fun t => drawLast params k cs (off - 1) t

/-- Go `Buffer.draw_n_last_runes`: "draws from right to left, 'off' is the end position". -/
def draw_n_last_runes (b : Buffer) (off n : Int) (params : LabelParams) (text : GoString) :
    Option Buffer :=
  (drawLast params n.toNat b.Cells off text).map b.withCells

/-- The loop `for n > 0 { ... }` of `skip_n_runes`, with the number of iterations left. -/
def skipLoop : Nat → GoString → Option GoString
  | 0, x => some x
  | k + 1, x => (sliceFrom x ((DecodeRuneInString x).2 : Int)).bind fun t => skipLoop k t

/-- Go `skip_n_runes`: returns `x` at once when `n <= 0`, else runs the loop. -/
def skip_n_runes (x : GoString) (n : Int) : Option GoString :=
  if n ≤ 0 then some x else skipLoop n.toNat x

/-- The block `if n > dest.Width { ... }` of `DrawLabel`, entered when the text does not
fit: writes the ellipsis cells and returns the buffer with the new value of `n`. -/
def drawEllipsis (b : Buffer) (off width : Int) (params : LabelParams) :
    Option (Buffer × Int) :=
  let ellipsis : Cell := ⟨params.Ellipsis, params.Fg, params.Bg⟩
  let n := width - 1
  if params.CenterEllipsis then
    (setCell b.Cells (off + width.tdiv 2) ellipsis).map fun cs => (b.withCells cs, n)
  else if params.Align = AlignLeft then
    (setCell b.Cells (off + width - 1) ellipsis).map fun cs => (b.withCells cs, n)
  else if params.Align = AlignCenter then
    ((setCell b.Cells off ellipsis).bind fun cs =>
      setCell cs (off + width - 1) ellipsis).map fun cs => (b.withCells cs, n - 1)
  else if params.Align = AlignRight then
    (setCell b.Cells off ellipsis).map fun cs => (b.withCells cs, n)
  else some (b, n)

/-- The part of `DrawLabel` after the ellipsis block: from `if n <= 0 { return }` on. -/
def drawText (b : Buffer) (off width textlen n : Int) (params : LabelParams)
    (text : GoString) : Option Buffer :=
  if n ≤ 0 then some b
  else if params.CenterEllipsis = true ∧ textlen ≠ n then
    let firsthalf := width.tdiv 2
    let secondhalf := width - 1 - firsthalf
    (draw_n_first_runes b off firsthalf params text).bind fun b1 =>
      draw_n_last_runes b1 (off + (width - 1)) secondhalf params text
  else if params.Align = AlignLeft then draw_n_first_runes b off n params text
  else if params.Align = AlignCenter then
    if textlen = n then
      draw_n_first_runes b (off + (width - n).tdiv 2) n params text
    else
      (skip_n_runes text ((textlen - n).tdiv 2)).bind fun t =>
        draw_n_first_runes b (off + 1) n params t
  else if params.Align = AlignRight then
    draw_n_last_runes b (off + (width - 1)) n params text
  else some b

/-- Go `Buffer.DrawLabel`: forces the height of `dest` to 1, clips, and draws the ellipsis
block and the text. -/
def DrawLabel (b : Buffer) (dest : Rect) (params : LabelParams) (text : GoString) :
    Option Buffer :=
  let dest : Rect := if dest.Height ≠ 1 then ⟨dest.X, dest.Y, dest.Width, 1⟩ else dest
  let dest := dest.Intersection b.Rect
  if dest.Height = 0 ∨ dest.Width = 0 then some b
  else
    let off := dest.Y * b.Width + dest.X
    let textlen := RuneCountInString text
    if textlen > dest.Width then
      (drawEllipsis b off dest.Width params).bind fun p =>
        drawText p.1 off dest.Width textlen p.2 params text
    else drawText b off dest.Width textlen textlen params text

/-! ## Definitions used in the proofs -/

/-- A continuation byte of UTF-8, `10xxxxxx`. -/
def isCont (b : Nat) : Prop := 0x80 ≤ b ∧ b ≤ 0xBF

/-- The control flow of `DecodeRuneInString`, the table entry and the rune values
abstracted. -/
def decC (n : Nat) (one : Prop) [Decidable one] (sz lo hi s1 s2 s3 : Nat)
    (r1 r2 r3 r4 : Rune) : Rune × Nat :=
  if n < 1 then (RuneError, 0) else
  if one then (r1, 1) else
  if n < sz then (RuneError, 1) else
  if s1 < lo ∨ hi < s1 then (RuneError, 1) else
  if sz ≤ 2 then (r2, 2) else
  if s2 < 0x80 ∨ 0xBF < s2 then (RuneError, 1) else
  if sz ≤ 3 then (r3, 3) else
  if s3 < 0x80 ∨ 0xBF < s3 then (RuneError, 1) else (r4, 4)

/-- The rune values that `DecodeRuneInString` returns, by width. -/
def rune1 (x s0 : Nat) : Rune := if x % 2 = 1 then RuneError else (s0 : Int)
def rune2 (s0 s1 : Nat) : Rune := (((s0 &&& 0x1F) <<< 6 ||| (s1 &&& 0x3F) : Nat) : Int)
def rune3 (s0 s1 s2 : Nat) : Rune :=
  (((s0 &&& 0x0F) <<< 12 ||| (s1 &&& 0x3F) <<< 6 ||| (s2 &&& 0x3F) : Nat) : Int)
def rune4 (s0 s1 s2 s3 : Nat) : Rune :=
  (((s0 &&& 0x07) <<< 18 ||| (s1 &&& 0x3F) <<< 12 ||| (s2 &&& 0x3F) <<< 6
        ||| (s3 &&& 0x3F) : Nat) : Int)


/-- The cell at `(x, y)`: "Index of `(x,y)` is `y*width + x`". -/
def Buffer.cellAt (b : Buffer) (x y : Int) : Option Cell :=
  b.Cells[(y * b.Width + x).toNat]?

/-- The rectangle that `DrawLabel` draws into: the top row of `dest`, clipped to the
buffer. -/
def clipRow (b : Buffer) (dest : Rect) : Rect :=
  (⟨dest.X, dest.Y, dest.Width, 1⟩ : Rect).Intersection b.Rect

/-- Rune `k` of a list of runes (0 outside the list). -/
def runeAt (rs : List Rune) (k : Int) : Rune := rs.getD k.toNat 0

/-- The cell that a label draws for the rune `ch`. -/
def LabelParams.cell (params : LabelParams) (ch : Rune) : Cell := ⟨ch, params.Fg, params.Bg⟩

/-- The rune that `DrawLabel` leaves in column `i` of a clipped row of `w` cells for a text
with the runes `rs`, `none` when it does not write that column. -/
def labelRune (params : LabelParams) (w : Int) (rs : List Rune) (i : Int) : Option Rune :=
  if (rs.length : Int) > w then
    if params.CenterEllipsis = true then
      if i = w / 2 then some params.Ellipsis
      else if i < w / 2 then some (runeAt rs i)
      else some (runeAt rs (rs.length - (w - i)))
    else if params.Align = AlignLeft then
      if i = w - 1 then some params.Ellipsis else some (runeAt rs i)
    else if params.Align = AlignCenter then
      if i = 0 ∨ i = w - 1 then some params.Ellipsis
      else some (runeAt rs ((rs.length - (w - 2)) / 2 + (i - 1)))
    else if params.Align = AlignRight then
      if i = 0 then some params.Ellipsis else some (runeAt rs (rs.length - (w - i)))
    else none
  else if params.Align = AlignLeft then
    if i < rs.length then some (runeAt rs i) else none
  else if params.Align = AlignCenter then
    if (w - rs.length) / 2 ≤ i ∧ i < (w - rs.length) / 2 + rs.length then
      some (runeAt rs (i - (w - rs.length) / 2))
    else none
  else if params.Align = AlignRight then
    if w - rs.length ≤ i then some (runeAt rs (i - (w - rs.length))) else none
  else none

/-- The content of a cell after a write of `labelRune`: the new cell, or the old content. -/
def paint (params : LabelParams) (old : Option Cell) : Option Rune → Option Cell
  | some ch => some (params.cell ch)
  | none => old

/-- The alignments of the enumeration: `AlignLeft`, `AlignCenter`, `AlignRight`. -/
def IsAlignment (a : Alignment) : Prop := a = AlignLeft ∨ a = AlignCenter ∨ a = AlignRight

/-- A Unicode scalar value: a code point up to `U+10FFFF` that is not a surrogate. -/
def IsScalar (c : Nat) : Prop := c < 0xD800 ∨ (0xE000 ≤ c ∧ c < 0x110000)

/-- The UTF-8 encoding of a scalar value, one to four bytes. -/
def utf8Bytes (c : Nat) : GoString :=
  if c < 0x80 then [Fin.ofNat c]
  else if c < 0x800 then [Fin.ofNat (0xC0 + c / 64), Fin.ofNat (0x80 + c % 64)]
  else if c < 0x10000 then
    [Fin.ofNat (0xE0 + c / 4096), Fin.ofNat (0x80 + c / 64 % 64), Fin.ofNat (0x80 + c % 64)]
  else
    [Fin.ofNat (0xF0 + c / 262144), Fin.ofNat (0x80 + c / 4096 % 64),
      Fin.ofNat (0x80 + c / 64 % 64), Fin.ofNat (0x80 + c % 64)]

/-- The well-formed UTF-8 text with the scalar values `cs`. -/
def utf8 : List Nat → GoString
  | [] => []
  | c :: cs => utf8Bytes c ++ utf8 cs

/-! ## Concrete inputs -/

/-- A grid of 5 columns and 2 rows of zero cells. -/
def exGrid : Buffer := ⟨List.replicate 10 zeroCell, [], 5, 2⟩

/-- The bytes of "Hello World". -/
def exHello : GoString := [72, 101, 108, 108, 111, 32, 87, 111, 114, 108, 100]

/-- A buffer of 2 columns and 1 row whose slice has two spare cells of capacity. -/
def exSpare : Buffer := ⟨[⟨65, 1, 2⟩, ⟨66, 1, 2⟩], [⟨67, 3, 4⟩, zeroCell], 2, 1⟩

/-- The bytes of "Hi". -/
def exHi : GoString := [72, 105]

/-- Label parameters with foreground 1, background 2 and the ellipsis `…`. -/
def exParams (align : Alignment) (centerEllipsis : Bool) : LabelParams :=
  ⟨1, 2, align, 0x2026, centerEllipsis⟩

/-! ## Theorems: UTF-8 decoding -/

/-- The decoders on small inputs: ASCII, the three bytes of `…`, a truncated encoding. -/
theorem decode_examples :
    runes [0x48, 0x69] = [0x48, 0x69] ∧
    runes [0xE2, 0x80, 0xA6, 0x41] = [0x2026, 0x41] ∧
    runes [0xE2, 0x80] = [0xFFFD, 0xFFFD] ∧
    DecodeLastRuneInString [0x41, 0xE2, 0x80, 0xA6] = (0x2026, 3) ∧
    DecodeLastRuneInString [0x41, 0x80, 0xA6] = (0xFFFD, 1) ∧
    DecodeLastRuneInString [0xF0, 0x9F, 0x98, 0x80] = (0x1F600, 4) := by
  decide

theorem decode_eq_decC (s : GoString) :
    DecodeRuneInString s =
      decC s.length (first (s.getD 0 0) ≥ 0xF0) (first (s.getD 0 0) &&& 7)
        (acceptRanges (first (s.getD 0 0) >>> 4)).1 (acceptRanges (first (s.getD 0 0) >>> 4)).2
        (byteAt s 1) (byteAt s 2) (byteAt s 3)
        (rune1 (first (s.getD 0 0)) (byteAt s 0)) (rune2 (byteAt s 0) (byteAt s 1))
        (rune3 (byteAt s 0) (byteAt s 1) (byteAt s 2))
        (rune4 (byteAt s 0) (byteAt s 1) (byteAt s 2) (byteAt s 3)) :=
  rfl

theorem first_table (b : Byte) :
    0xF0 ≤ first b ∨ (2 ≤ first b &&& 7 ∧ first b &&& 7 ≤ 4 ∧
      0x80 ≤ (acceptRanges (first b >>> 4)).1 ∧ (acceptRanges (first b >>> 4)).2 ≤ 0xBF ∧
      0xC2 ≤ b.val) := by
  unfold first; split_ifs <;> first | (left; decide) | (right; refine ⟨by decide, by decide, by decide, by decide, by omega⟩)


theorem decC_size (n : Nat) (one : Prop) [Decidable one] (sz lo hi s1 s2 s3 : Nat)
    (r1 r2 r3 r4 : Rune) (hn : 1 ≤ n) (hsz : one ∨ (2 ≤ sz ∧ sz ≤ 4)) :
    1 ≤ (decC n one sz lo hi s1 s2 s3 r1 r2 r3 r4).2 ∧
      (decC n one sz lo hi s1 s2 s3 r1 r2 r3 r4).2 ≤ n ∧
      (decC n one sz lo hi s1 s2 s3 r1 r2 r3 r4).2 ≤ 4 := by
  unfold decC
  by_cases ho : one
  · have : ¬ n < 1 := by omega
    simp [ho, this]; omega
  · have hs := hsz.resolve_left ho
    simp only [ho, if_false]
    split_ifs <;> simp <;> omega

theorem decC_valid (n : Nat) (one : Prop) [Decidable one] (sz lo hi s1 s2 s3 : Nat)
    (r1 r2 r3 r4 : Rune) (hlo : 0x80 ≤ lo) (hhi : hi ≤ 0xBF)
    (h : 2 ≤ (decC n one sz lo hi s1 s2 s3 r1 r2 r3 r4).2) :
    ¬ one ∧ isCont s1 ∧ (3 ≤ (decC n one sz lo hi s1 s2 s3 r1 r2 r3 r4).2 → isCont s2) ∧
      (4 ≤ (decC n one sz lo hi s1 s2 s3 r1 r2 r3 r4).2 → isCont s3) := by
  unfold decC at h ⊢
  unfold isCont
  by_cases ho : one
  · simp [ho] at h; split_ifs at h <;> simp at h
  · refine ⟨ho, ?_⟩
    simp only [ho, if_false] at h ⊢
    split_ifs at h ⊢ <;> simp at h ⊢ <;> omega

theorem decC_take (n m : Nat) (one : Prop) [Decidable one] (sz lo hi s1 s2 s3 t1 t2 t3 : Nat)
    (r1 r2 r3 r4 q2 q3 q4 : Rune) (hm : 1 ≤ m) (hsz : one ∨ (2 ≤ sz ∧ sz ≤ 4))
    (h1 : 1 < m → t1 = s1) (h2 : 2 < m → t2 = s2) (h3 : 3 < m → t3 = s3)
    (g2 : 2 ≤ m → q2 = r2) (g3 : 3 ≤ m → q3 = r3) (g4 : 4 ≤ m → q4 = r4)
    (h : (decC n one sz lo hi s1 s2 s3 r1 r2 r3 r4).2 ≤ m) :
    decC (min m n) one sz lo hi t1 t2 t3 r1 q2 q3 q4 =
      decC n one sz lo hi s1 s2 s3 r1 r2 r3 r4 := by
  unfold decC at h ⊢
  by_cases ho : one
  · simp only [ho, if_true]
    have : (min m n < 1) ↔ (n < 1) := by omega
    simp only [this]
  · have hs := hsz.resolve_left ho
    simp only [ho, if_false] at h ⊢
    by_cases hn : n < 1
    · have : min m n < 1 := by omega
      simp only [hn, this, if_true]
    · have hn' : ¬ min m n < 1 := by omega
      simp only [hn, hn', if_false] at h ⊢
      by_cases c : n < sz
      · have : min m n < sz := by omega
        simp only [c, this, if_true]
      · simp only [c, if_false] at h ⊢
        by_cases cm : m < sz
        · have : min m n < sz := by omega
          simp only [this, if_true]
          split_ifs at h ⊢ <;> first | rfl | (exfalso; simp at h; omega)
        · have : ¬ min m n < sz := by omega
          simp only [this, if_false]
          have e1 := h1 (by omega)
          have f2 := g2 (by omega)
          subst e1 f2
          by_cases c2 : sz ≤ 2
          · simp only [c2, if_true]
          · simp only [c2, if_false] at h ⊢
            have e2 := h2 (by omega)
            have f3 := g3 (by omega)
            subst e2 f3
            by_cases c3 : sz ≤ 3
            · simp only [c3, if_true]
            · simp only [c3, if_false] at h ⊢
              have e3 := h3 (by omega)
              have f4 := g4 (by omega)
              subst e3 f4
              rfl

theorem decode_nil : DecodeRuneInString [] = (RuneError, 0) := rfl

theorem decode_size (s : GoString) (hs : s ≠ []) :
    1 ≤ (DecodeRuneInString s).2 ∧ (DecodeRuneInString s).2 ≤ s.length ∧
      (DecodeRuneInString s).2 ≤ 4 := by
  rw [decode_eq_decC]
  apply decC_size
  · cases s with
    | nil => exact absurd rfl hs
    | cons a t => simp
  · rcases first_table (s.getD 0 0) with h | h
    · exact Or.inl h
    · exact Or.inr ⟨h.1, h.2.1⟩

theorem byteAt_take (s : GoString) (m i : Nat) (h : i < m) :
    byteAt (s.take m) i = byteAt s i := by
  unfold byteAt
  simp [List.getD_eq_getElem?_getD, List.getElem?_take, h]

theorem byteAt_drop (s : GoString) (m i : Nat) :
    byteAt (s.drop m) i = byteAt s (m + i) := by
  unfold byteAt
  simp [List.getD_eq_getElem?_getD, List.getElem?_drop]

theorem decode_valid (s : GoString) (h : 2 ≤ (DecodeRuneInString s).2) :
    0xC2 ≤ byteAt s 0 ∧ ∀ m, 1 ≤ m → m < (DecodeRuneInString s).2 → isCont (byteAt s m) := by
  have hs : s ≠ [] := by
    rintro rfl
    simp [decode_nil] at h
  have h4 := (decode_size s hs).2.2
  rw [decode_eq_decC] at h h4 ⊢
  rcases first_table (s.getD 0 0) with hx | ⟨-, -, hlo, hhi, hb⟩
  · unfold decC at h
    simp only [ge_iff_le, hx, if_true] at h
    split_ifs at h <;> simp at h
  · obtain ⟨-, c1, c2, c3⟩ := decC_valid _ _ _ _ _ _ _ _ _ _ _ _ hlo hhi h
    refine ⟨hb, ?_⟩
    intro m hm1 hm2
    have hm : m = 1 ∨ m = 2 ∨ m = 3 := by omega
    rcases hm with rfl | rfl | rfl
    · exact c1
    · exact c2 (by omega)
    · exact c3 (by omega)

theorem decode_take (s : GoString) (m : Nat) (hm : 1 ≤ m)
    (h : (DecodeRuneInString s).2 ≤ m) :
    DecodeRuneInString (s.take m) = DecodeRuneInString s := by
  have h0 : (s.take m).getD 0 0 = s.getD 0 0 := by
    have h1 : 0 < m := hm
    simp [List.getD_eq_getElem?_getD, List.getElem?_take, h1]
  have b0 : byteAt (s.take m) 0 = byteAt s 0 := byteAt_take s m 0 (by omega)
  rw [decode_eq_decC] at h
  rw [decode_eq_decC, decode_eq_decC, h0, b0, List.length_take]
  apply decC_take _ _ _ _ _ _ _ _ _ _ _ _ _ _ _ _ _ _ _ hm
  · rcases first_table (s.getD 0 0) with h | h
    · exact Or.inl h
    · exact Or.inr ⟨h.1, h.2.1⟩
  · intro c; exact byteAt_take s m 1 c
  · intro c; exact byteAt_take s m 2 c
  · intro c; exact byteAt_take s m 3 c
  · intro c; rw [byteAt_take s m 1 (by omega)]
  · intro c; rw [byteAt_take s m 1 (by omega), byteAt_take s m 2 (by omega)]
  · intro c
    rw [byteAt_take s m 1 (by omega), byteAt_take s m 2 (by omega),
      byteAt_take s m 3 (by omega)]
  · exact h

theorem decode_append (p v : GoString) (hp : p ≠ [])
    (h : (DecodeRuneInString (p ++ v)).2 ≤ p.length) :
    DecodeRuneInString (p ++ v) = DecodeRuneInString p := by
  have hl : 1 ≤ p.length := by
    cases p with
    | nil => exact absurd rfl hp
    | cons a t => simp
  have := decode_take (p ++ v) p.length hl h
  rw [List.take_left] at this
  exact this.symm

theorem rangeRunes_fuel (k : Nat) : ∀ (s : GoString), s.length ≤ k →
    rangeRunes k s = rangeRunes s.length s := by
  induction k using Nat.strong_induction_on with
  | _ k ih =>
    intro s hk
    cases s with
    | nil => cases k <;> simp [rangeRunes]
    | cons a t =>
      obtain ⟨k', rfl⟩ : ∃ k', k = k' + 1 := ⟨k - 1, by simp at hk; omega⟩
      have hsz := decode_size (a :: t) (by simp)
      simp only [List.length_cons] at hk hsz ⊢
      simp only [rangeRunes, List.length_cons]
      have hl : ((a :: t).drop (DecodeRuneInString (a :: t)).2).length ≤ t.length := by
        simp only [List.length_drop, List.length_cons]; omega
      simp only [Nat.add_one_ne_zero, if_false]
      rw [ih k' (by omega) _ (by omega), ih t.length (by omega) _ hl]

theorem runes_nil : runes [] = [] := rfl

theorem runes_cons (s : GoString) (hs : s ≠ []) :
    runes s = (DecodeRuneInString s).1 :: runes (s.drop (DecodeRuneInString s).2) := by
  cases s with
  | nil => exact absurd rfl hs
  | cons a t =>
    have hsz := decode_size (a :: t) (by simp)
    unfold runes
    simp only [List.length_cons, rangeRunes, Nat.add_one_ne_zero, if_false]
    rw [rangeRunes_fuel t.length _ (by
      simp only [List.length_drop, List.length_cons]; simp only [List.length_cons] at hsz; omega)]

theorem runes_length_le (s : GoString) : (runes s).length ≤ s.length := by
  generalize h : s.length = n
  induction n using Nat.strong_induction_on generalizing s with
  | _ n ih =>
    subst h
    by_cases hs : s = []
    · subst hs; simp [runes_nil]
    · have hsz := decode_size s hs
      rw [runes_cons s hs, List.length_cons]
      have := ih ((s.drop (DecodeRuneInString s).2).length) (by simp; omega) _ rfl
      simp at this; omega

/-- When no rune decoded inside `p` reaches into `v`, decoding `p ++ v` is decoding `p`
and then `v`. -/
theorem runes_append (v : GoString) : ∀ (p : GoString),
    (∀ i, i < p.length → (DecodeRuneInString ((p ++ v).drop i)).2 ≤ p.length - i) →
    runes (p ++ v) = runes p ++ runes v := by
  intro p
  generalize h : p.length = n
  induction n using Nat.strong_induction_on generalizing p with
  | _ n ih =>
    subst h
    intro hc
    by_cases hp : p = []
    · subst hp; simp [runes_nil]
    · have hpl : 0 < p.length := List.length_pos.mpr hp
      have h0 := hc 0 hpl
      simp only [List.drop_zero, Nat.sub_zero] at h0
      have hd := decode_append p v hp h0
      have hsz := decode_size p hp
      rw [runes_cons (p ++ v) (by simp [hp]), runes_cons p hp, hd]
      rw [List.drop_append_of_le_length hsz.2.1, List.cons_append]
      congr 1
      apply ih _ _ _ rfl
      · intro i hi
        have := hc (i + (DecodeRuneInString p).2) (by simp at hi; omega)
        rw [← List.drop_append_of_le_length hsz.2.1, List.drop_drop]
        simp only [List.length_drop]
        rw [Nat.add_comm] at this
        have e : p.length - ((DecodeRuneInString p).2 + i) = p.length - (DecodeRuneInString p).2 - i := by omega
        rw [← e]
        convert this using 3
      · simp; omega

theorem runes_single (v : GoString) (hv : v ≠ [])
    (h : (DecodeRuneInString v).2 = v.length) : runes v = [(DecodeRuneInString v).1] := by
  rw [runes_cons v hv, h, List.drop_length, runes_nil]

theorem byteAt_append_left (p v : GoString) (i : Nat) (h : i < p.length) :
    byteAt (p ++ v) i = byteAt p i := by
  unfold byteAt
  simp [List.getD_eq_getElem?_getD, List.getElem?_append_left h]

theorem byteAt_append_right (p v : GoString) (i : Nat) :
    byteAt (p ++ v) (p.length + i) = byteAt v i := by
  unfold byteAt
  simp [List.getD_eq_getElem?_getD, List.getElem?_append_right]

/-- A byte that starts a rune is never consumed by a rune decoded before it. -/
theorem runes_append_start (p v : GoString)
    (hv : ∀ b t, v = b :: t → ¬ isCont b.val) : runes (p ++ v) = runes p ++ runes v := by
  apply runes_append
  intro i hi
  rw [List.drop_append_of_le_length (by omega)]
  by_contra hc
  have hne : p.drop i ≠ [] := by
    intro h0
    have := congrArg List.length h0
    simp at this; omega
  cases v with
  | nil =>
    have := (decode_size (p.drop i ++ []) (by simp [hne])).2.1
    simp at this hc; omega
  | cons b t =>
    have hval := (decode_valid (p.drop i ++ b :: t) (by omega)).2 (p.length - i) (by omega)
      (by omega)
    have e : p.length - i = (p.drop i).length + 0 := by simp
    rw [e, byteAt_append_right] at hval
    exact hv b t rfl hval

theorem lastRuneStart_spec (s : GoString) (lim : Int) : ∀ (k : Nat) (st : Int),
    st - lim + 1 ≤ k →
      lastRuneStart s lim k st ≤ st ∧
      (lim ≤ st → lim - 1 ≤ lastRuneStart s lim k st) ∧
      (st < lim → lastRuneStart s lim k st = st) ∧
      (∀ j, lastRuneStart s lim k st < j → j ≤ st → RuneStart (byteAt s j.toNat) = false) ∧
      (lim ≤ lastRuneStart s lim k st → RuneStart (byteAt s (lastRuneStart s lim k st).toNat) = true) := by
  intro k
  induction k with
  | zero =>
    intro st hk
    have e : lastRuneStart s lim 0 st = st := rfl
    rw [e]
    exact ⟨le_refl _, fun h => by omega, fun _ => rfl, fun j h1 h2 => by omega,
      fun h => by omega⟩
  | succ k ih =>
    intro st hk
    by_cases c : st ≥ lim
    · by_cases r : RuneStart (byteAt s st.toNat) = true
      · have e : lastRuneStart s lim (k + 1) st = st := by simp [lastRuneStart, c, r]
        rw [e]
        exact ⟨le_refl _, fun _ => by omega, fun h => rfl, fun j h1 h2 => by omega, fun _ => r⟩
      · have e : lastRuneStart s lim (k + 1) st = lastRuneStart s lim k (st - 1) := by
          simp [lastRuneStart, c, r]
        rw [e]
        obtain ⟨i1, i2, i3, i4, i5⟩ := ih (st - 1) (by push_cast at hk ⊢; omega)
        refine ⟨by omega, fun _ => ?_, fun h => by omega, fun j h1 h2 => ?_, i5⟩
        · by_cases c' : lim ≤ st - 1
          · exact i2 c'
          · rw [i3 (by omega)]; omega
        · by_cases hj : j = st
          · subst hj; simpa using r
          · exact i4 j h1 (by omega)
    · have e : lastRuneStart s lim (k + 1) st = st := by simp [lastRuneStart, c]
      rw [e]
      exact ⟨le_refl _, fun h => by omega, fun _ => rfl, fun j h1 h2 => by omega,
        fun h => by omega⟩

set_option maxRecDepth 1000000 in
theorem runeStart_iff (b : Byte) : RuneStart b.val = true ↔ ¬ isCont b.val := by
  revert b; unfold isCont; decide

theorem runeStart_byteAt (s : GoString) (i : Nat) :
    RuneStart (byteAt s i) = true ↔ ¬ isCont (byteAt s i) := runeStart_iff _

theorem first_one (b : Byte) (h : first b ≥ 0xF0) :
    (first b = 0xF0 ∧ b.val < 0x80) ∨ (first b = 0xF1 ∧ 0x80 ≤ b.val) := by
  revert h
  unfold first
  split_ifs <;> simp <;> omega

theorem decode_ascii (b : Byte) (h : b.val < 0x80) :
    DecodeRuneInString [b] = ((b.val : Int), 1) := by
  have hf : first b = 0xF0 := by unfold first; simp [h]
  rw [decode_eq_decC]
  simp [decC, byteAt, hf, rune1]

theorem decode_single_high (b : Byte) (h : 0x80 ≤ b.val) :
    DecodeRuneInString [b] = (RuneError, 1) := by
  rw [decode_eq_decC]
  by_cases hx : first b ≥ 0xF0
  · rcases first_one b hx with ⟨-, h1⟩ | ⟨hf, -⟩
    · omega
    · simp [decC, hf, rune1]
  · rcases first_table b with h1 | ⟨h2, -⟩
    · exact absurd h1 hx
    · have hn : (1 : Nat) < first b &&& 7 := by omega
      have e : ([b] : GoString).getD 0 0 = b := rfl
      simp only [decC, e, List.length_singleton, hx, hn, if_true, if_false]
      simp

theorem runes_byte (b : Byte) :
    runes [b] = [if b.val < 0x80 then (b.val : Int) else RuneError] := by
  by_cases h : b.val < 0x80
  · rw [runes_single [b] (by simp) (by rw [decode_ascii b h]; rfl), decode_ascii b h]
    simp [h]
  · rw [runes_single [b] (by simp) (by rw [decode_single_high b (by omega)]; rfl),
      decode_single_high b (by omega)]
    simp [h]

theorem decodeLast_nil : DecodeLastRuneInString [] = (RuneError, 0) := rfl

/-- Unfolding of `DecodeLastRuneInString` on a string that ends in a byte `≥ 0x80`. -/
theorem decodeLast_high (q : GoString) (c : Byte) (hc : 0x80 ≤ c.val) :
    DecodeLastRuneInString (q ++ [c]) =
      (let st := lastRuneStart (q ++ [c]) (if (q.length : Int) + 1 - 4 < 0 then 0 else (q.length : Int) + 1 - 4)
          (q.length + 1) ((q.length : Int) - 1)
       let start := if st < 0 then 0 else st
       let d := DecodeRuneInString ((q ++ [c]).drop start.toNat)
       if start + d.2 ≠ (q.length : Int) + 1 then (RuneError, 1) else d) := by
  have hb : byteAt (q ++ [c]) q.length = c.val := by
    simp [byteAt]
  unfold DecodeLastRuneInString
  have e1 : ((q ++ [c]).length : Int) = (q.length : Int) + 1 := by simp
  simp only [e1]
  have e2 : ¬ ((q.length : Int) + 1 = 0) := by omega
  have e3 : ((q.length : Int) + 1 - 1).toNat = q.length := by omega
  have e4 : ((q.length : Int) + 1).toNat = (q ++ [c]).length := by simp
  have e5 : ¬ (c.val < RuneSelf) := by unfold RuneSelf; omega
  simp only [e2, e3, e4, hb, e5, if_false, List.take_length, UTFMax]
  have e6 : (q ++ [c]).length = q.length + 1 := by simp
  have e7 : (q.length : Int) + 1 - 1 - 1 = (q.length : Int) - 1 := by omega
  simp only [e6, e7]
  rfl

theorem decodeLast_ascii (q : GoString) (c : Byte) (hc : c.val < 0x80) :
    DecodeLastRuneInString (q ++ [c]) = ((c.val : Int), 1) := by
  have hb : byteAt (q ++ [c]) q.length = c.val := by
    simp [byteAt]
  unfold DecodeLastRuneInString
  have e1 : ((q ++ [c]).length : Int) = (q.length : Int) + 1 := by simp
  simp only [e1]
  have e2 : ¬ ((q.length : Int) + 1 = 0) := by omega
  have e3 : ((q.length : Int) + 1 - 1).toNat = q.length := by omega
  have e5 : c.val < RuneSelf := by unfold RuneSelf; omega
  simp only [e2, e3, hb, e5, if_false, if_true]

/-- Decoding backwards agrees with decoding forwards: the rune that
`DecodeLastRuneInString` returns is the last rune of the string, and cutting its bytes
off the end leaves the runes before it. -/
theorem decodeLast_spec (s : GoString) (hs : s ≠ []) :
    1 ≤ (DecodeLastRuneInString s).2 ∧ (DecodeLastRuneInString s).2 ≤ s.length ∧
      runes s = runes (s.take (s.length - (DecodeLastRuneInString s).2)) ++
        [(DecodeLastRuneInString s).1] := by
  rcases List.eq_nil_or_concat s with h | ⟨q, c, rfl⟩
  · exact absurd h hs
  simp only [List.concat_eq_append] at *
  have hlen : (q ++ [c]).length = q.length + 1 := by simp
  by_cases hc : c.val < 0x80
  · rw [decodeLast_ascii q c hc, hlen]
    refine ⟨le_refl _, by omega, ?_⟩
    simp only [Nat.add_sub_cancel, List.take_left]
    rw [runes_append_start q [c] (by
      intro b t hbt
      simp at hbt
      obtain ⟨rfl, -⟩ := hbt
      unfold isCont; omega), runes_byte, if_pos hc]
  · have hc' : 0x80 ≤ c.val := by omega
    have key := decodeLast_high q c hc'
    dsimp only at key
    have hsp := lastRuneStart_spec (q ++ [c])
      (if (q.length : Int) + 1 - 4 < 0 then 0 else (q.length : Int) + 1 - 4)
      (q.length + 1) ((q.length : Int) - 1) (by split_ifs <;> push_cast <;> omega)
    generalize hlim : (if (q.length : Int) + 1 - 4 < 0 then (0 : Int)
      else (q.length : Int) + 1 - 4) = lim at key hsp
    generalize hst : lastRuneStart (q ++ [c]) lim (q.length + 1) ((q.length : Int) - 1) = st
      at key hsp
    obtain ⟨i1, i2, i3, i4, i5⟩ := hsp
    generalize hstart : (if st < 0 then (0 : Int) else st) = start at key
    have hs0 : 0 ≤ start := by rw [← hstart]; split_ifs <;> omega
    have hs1 : start ≤ q.length := by rw [← hstart]; split_ifs <;> omega
    have hne : (q ++ [c]).drop start.toNat ≠ [] := by
      intro h0
      have := congrArg List.length h0
      simp at this; omega
    obtain ⟨d1, d2, d3⟩ := decode_size _ hne
    simp only [List.length_drop, hlen] at d2
    by_cases hfit : start + ((DecodeRuneInString ((q ++ [c]).drop start.toNat)).2 : Int)
        = (q.length : Int) + 1
    · rw [if_neg (by simpa using hfit)] at key
      rw [key, hlen]
      refine ⟨d1, by omega, ?_⟩
      have hi : q.length + 1 - (DecodeRuneInString ((q ++ [c]).drop start.toNat)).2
          = start.toNat := by omega
      rw [hi]
      have hv : runes ((q ++ [c]).drop start.toNat)
          = [(DecodeRuneInString ((q ++ [c]).drop start.toNat)).1] :=
        runes_single _ hne (by simp only [List.length_drop, hlen]; omega)
      by_cases h0 : start.toNat = 0
      · rw [h0] at hv ⊢
        simp only [List.drop_zero] at hv
        simp only [List.take_zero, runes_nil, List.nil_append, List.drop_zero]
        exact hv
      · have hval := decode_valid ((q ++ [c]).drop start.toNat) (by
          have : st = start := by rw [← hstart]; split_ifs <;> omega
          omega)
        rw [← hv, ← runes_append_start]
        · rw [List.take_append_drop]
        · intro b t hbt
          have := hval.1
          rw [hbt] at this
          simp only [byteAt, List.getD_cons_zero] at this
          unfold isCont; omega
    · rw [if_pos (by simpa using hfit)] at key
      rw [key, hlen]
      refine ⟨le_refl _, by omega, ?_⟩
      simp only [Nat.add_sub_cancel, List.take_left]
      have hbyte : runes [c] = [RuneError] := by rw [runes_byte, if_neg hc]
      rw [← hbyte]
      apply runes_append
      intro i hi
      by_contra hcross
      have hne' : (q ++ [c]).drop i ≠ [] := by
        intro h0
        have := congrArg List.length h0
        simp at this; omega
      obtain ⟨e1, e2, e3⟩ := decode_size _ hne'
      simp only [List.length_drop, hlen] at e2
      obtain ⟨v1, v2⟩ := decode_valid ((q ++ [c]).drop i) (by omega)
      rw [byteAt_drop] at v1
      have hilim : lim ≤ (i : Int) := by rw [← hlim]; split_ifs <;> omega
      have hA : ¬ ((i : Int) < st) := by
        intro hlt
        have r := i5 (by omega)
        rw [runeStart_byteAt] at r
        apply r
        have := v2 (st.toNat - i) (by omega) (by omega)
        rw [byteAt_drop] at this
        have e : i + (st.toNat - i) = st.toNat := by omega
        rw [e] at this
        exact this
      have hB : ¬ (st < (i : Int)) := by
        intro hlt
        have r := i4 (i : Int) hlt (by omega)
        simp only [Int.toNat_ofNat, Nat.add_zero] at r
        have r' : RuneStart (byteAt (q ++ [c]) i) = true := by
          rw [runeStart_byteAt]; unfold isCont; simp only [Nat.add_zero] at v1; omega
        rw [r] at r'
        exact Bool.noConfusion r'
      have hsti : st = (i : Int) := by omega
      apply hfit
      have : start.toNat = i := by rw [← hstart, hsti]; split_ifs <;> omega
      rw [this]
      omega

/-! ## Theorems: well-formed UTF-8 -/

theorem byte_val (n : Nat) (h : n < 256) : ((Fin.ofNat n : Byte)).val = n := by
  show n % 256 = n
  omega

theorem or_shift (x y k : Nat) (h : y < 2 ^ k) : (x <<< k) ||| y = x * 2 ^ k + y := by
  rw [Nat.shiftLeft_eq, Nat.mul_comm x, ← Nat.mul_add_lt_is_or h]

theorem mask_lead2 : ∀ a < 32, (0xC0 + a) &&& 0x1F = a := by decide
theorem mask_lead3 : ∀ a < 16, (0xE0 + a) &&& 0x0F = a := by decide
theorem mask_lead4 : ∀ a < 8, (0xF0 + a) &&& 0x07 = a := by decide
theorem mask_cont : ∀ a < 64, (0x80 + a) &&& 0x3F = a := by decide

theorem rune2_eq (a d : Nat) (ha : a < 32) (hd : d < 64) :
    rune2 (0xC0 + a) (0x80 + d) = ((a * 64 + d : Nat) : Int) := by
  unfold rune2
  rw [mask_lead2 a ha, mask_cont d hd, or_shift a d 6 (by omega)]
  rfl

theorem rune3_eq (a d e : Nat) (ha : a < 16) (hd : d < 64) (he : e < 64) :
    rune3 (0xE0 + a) (0x80 + d) (0x80 + e) = ((a * 4096 + d * 64 + e : Nat) : Int) := by
  unfold rune3
  rw [mask_lead3 a ha, mask_cont d hd, mask_cont e he]
  have h1 : a <<< 12 ||| d <<< 6 = (a * 64 + d) <<< 6 := by
    rw [Nat.shiftLeft_eq d, or_shift a (d * 2 ^ 6) 12 (by omega), Nat.shiftLeft_eq]
    omega
  rw [h1, or_shift _ e 6 (by omega)]
  congr 1
  omega

theorem rune4_eq (a d e f : Nat) (ha : a < 8) (hd : d < 64) (he : e < 64) (hf : f < 64) :
    rune4 (0xF0 + a) (0x80 + d) (0x80 + e) (0x80 + f)
      = ((a * 262144 + d * 4096 + e * 64 + f : Nat) : Int) := by
  unfold rune4
  rw [mask_lead4 a ha, mask_cont d hd, mask_cont e he, mask_cont f hf]
  have h1 : a <<< 18 ||| d <<< 12 = (a * 64 + d) <<< 12 := by
    rw [Nat.shiftLeft_eq d, or_shift a (d * 2 ^ 12) 18 (by omega), Nat.shiftLeft_eq]
    omega
  have h2 : (a * 64 + d) <<< 12 ||| e <<< 6 = ((a * 64 + d) * 64 + e) <<< 6 := by
    rw [Nat.shiftLeft_eq e, or_shift _ (e * 2 ^ 6) 12 (by omega), Nat.shiftLeft_eq]
    omega
  rw [h1, h2, or_shift _ f 6 (by omega)]
  congr 1
  omega

theorem decC_two (n : Nat) (one : Prop) [Decidable one] (sz lo hi s1 s2 s3 : Nat)
    (r1 r2 r3 r4 : Rune) (ho : ¬ one) (hsz : sz = 2) (hn : 2 ≤ n) (h1 : lo ≤ s1)
    (h1' : s1 ≤ hi) : decC n one sz lo hi s1 s2 s3 r1 r2 r3 r4 = (r2, 2) := by
  unfold decC
  rw [if_neg (by omega), if_neg ho, if_neg (by omega), if_neg (by omega), if_pos (by omega)]

theorem decC_three (n : Nat) (one : Prop) [Decidable one] (sz lo hi s1 s2 s3 : Nat)
    (r1 r2 r3 r4 : Rune) (ho : ¬ one) (hsz : sz = 3) (hn : 3 ≤ n) (h1 : lo ≤ s1)
    (h1' : s1 ≤ hi) (h2 : 0x80 ≤ s2) (h2' : s2 ≤ 0xBF) :
    decC n one sz lo hi s1 s2 s3 r1 r2 r3 r4 = (r3, 3) := by
  unfold decC
  rw [if_neg (by omega), if_neg ho, if_neg (by omega), if_neg (by omega), if_neg (by omega),
    if_neg (by omega), if_pos (by omega)]

theorem decC_four (n : Nat) (one : Prop) [Decidable one] (sz lo hi s1 s2 s3 : Nat)
    (r1 r2 r3 r4 : Rune) (ho : ¬ one) (hsz : sz = 4) (hn : 4 ≤ n) (h1 : lo ≤ s1)
    (h1' : s1 ≤ hi) (h2 : 0x80 ≤ s2) (h2' : s2 ≤ 0xBF) (h3 : 0x80 ≤ s3) (h3' : s3 ≤ 0xBF) :
    decC n one sz lo hi s1 s2 s3 r1 r2 r3 r4 = (r4, 4) := by
  unfold decC
  rw [if_neg (by omega), if_neg ho, if_neg (by omega), if_neg (by omega), if_neg (by omega),
    if_neg (by omega), if_neg (by omega), if_neg (by omega)]

set_option maxRecDepth 1000000 in
/-- The table entry of a lead byte of a two-byte encoding. -/
theorem first_lead2 : ∀ b : Byte, 0xC2 ≤ b.val → b.val ≤ 0xDF → first b = 0x02 := by
  decide

set_option maxRecDepth 1000000 in
/-- The table entry of a lead byte of a three-byte encoding. -/
theorem first_lead3 : ∀ b : Byte, 0xE0 ≤ b.val → b.val ≤ 0xEF →
    (b.val = 0xE0 ∧ first b = 0x13) ∨ (b.val = 0xED ∧ first b = 0x23) ∨
      (b.val ≠ 0xE0 ∧ b.val ≠ 0xED ∧ first b = 0x03) := by
  decide

set_option maxRecDepth 1000000 in
/-- The table entry of a lead byte of a four-byte encoding. -/
theorem first_lead4 : ∀ b : Byte, 0xF0 ≤ b.val → b.val ≤ 0xF4 →
    (b.val = 0xF0 ∧ first b = 0x34) ∨ (b.val = 0xF4 ∧ first b = 0x44) ∨
      (b.val ≠ 0xF0 ∧ b.val ≠ 0xF4 ∧ first b = 0x04) := by
  decide

theorem decode_ascii_cons (b : Byte) (t : GoString) (h : b.val < 0x80) :
    DecodeRuneInString (b :: t) = ((b.val : Int), 1) := by
  have hf : first b = 0xF0 := by unfold first; simp [h]
  rw [decode_eq_decC]
  simp [decC, byteAt, hf, rune1]

/-- Decoding the UTF-8 encoding of a scalar value gives the scalar value back and
consumes exactly its bytes. -/
theorem decode_utf8Bytes (c : Nat) (rest : GoString) (hc : IsScalar c) :
    DecodeRuneInString (utf8Bytes c ++ rest) = ((c : Int), (utf8Bytes c).length) ∧
      1 ≤ (utf8Bytes c).length := by
  unfold IsScalar at hc
  unfold utf8Bytes
  by_cases h1 : c < 0x80
  · rw [if_pos h1]
    refine ⟨?_, by simp⟩
    rw [List.singleton_append, decode_ascii_cons _ _ (by rw [byte_val c (by omega)]; exact h1),
      byte_val c (by omega)]
    rfl
  rw [if_neg h1]
  by_cases h2 : c < 0x800
  · rw [if_pos h2]
    refine ⟨?_, by simp⟩
    have v0 := byte_val (0xC0 + c / 64) (by omega)
    have v1 := byte_val (0x80 + c % 64) (by omega)
    have hf := first_lead2 (Fin.ofNat (0xC0 + c / 64)) (by rw [v0]; omega) (by rw [v0]; omega)
    rw [decode_eq_decC]
    simp only [List.cons_append, List.nil_append, List.getD_cons_zero, byteAt,
      List.getD_cons_succ, hf, v0, v1]
    rw [decC_two _ _ _ _ _ _ _ _ _ _ _ _ (by decide) (by decide) (by simp) (by
      show (acceptRanges 0).1 ≤ _
      show 0x80 ≤ _
      omega) (by
      show _ ≤ (acceptRanges 0).2
      show _ ≤ 0xBF
      omega)]
    rw [rune2_eq _ _ (by omega) (by omega)]
    simp only [List.length_cons, List.length_nil, Prod.mk.injEq, and_true]
    congr 1
    omega
  rw [if_neg h2]
  by_cases h3 : c < 0x10000
  · rw [if_pos h3]
    refine ⟨?_, by simp⟩
    have v0 := byte_val (0xE0 + c / 4096) (by omega)
    have v1 := byte_val (0x80 + c / 64 % 64) (by omega)
    have v2 := byte_val (0x80 + c % 64) (by omega)
    have hf := first_lead3 (Fin.ofNat (0xE0 + c / 4096)) (by rw [v0]; omega)
      (by rw [v0]; omega)
    rw [v0] at hf
    rw [decode_eq_decC]
    simp only [List.cons_append, List.nil_append, List.getD_cons_zero, byteAt,
      List.getD_cons_succ, v0, v1, v2]
    have hr := rune3_eq (c / 4096) (c / 64 % 64) (c % 64) (by omega) (by omega) (by omega)
    have hc' : c / 4096 * 4096 + c / 64 % 64 * 64 + c % 64 = c := by omega
    rw [hc'] at hr
    rcases hf with ⟨hb, hf⟩ | ⟨hb, hf⟩ | ⟨-, -, hf⟩
    · rw [hf, decC_three _ _ _ _ _ _ _ _ _ _ _ _ (by decide) (by decide) (by simp) (by
        show 0xA0 ≤ _
        omega) (by
        show _ ≤ 0xBF
        omega) (by omega) (by omega), hr]
      rfl
    · rw [hf, decC_three _ _ _ _ _ _ _ _ _ _ _ _ (by decide) (by decide) (by simp) (by
        show 0x80 ≤ _
        omega) (by
        show _ ≤ 0x9F
        omega) (by omega) (by omega), hr]
      rfl
    · rw [hf, decC_three _ _ _ _ _ _ _ _ _ _ _ _ (by decide) (by decide) (by simp) (by
        show 0x80 ≤ _
        omega) (by
        show _ ≤ 0xBF
        omega) (by omega) (by omega), hr]
      rfl
  · rw [if_neg h3]
    refine ⟨?_, by simp⟩
    have v0 := byte_val (0xF0 + c / 262144) (by omega)
    have v1 := byte_val (0x80 + c / 4096 % 64) (by omega)
    have v2 := byte_val (0x80 + c / 64 % 64) (by omega)
    have v3 := byte_val (0x80 + c % 64) (by omega)
    have hf := first_lead4 (Fin.ofNat (0xF0 + c / 262144)) (by rw [v0]; omega)
      (by rw [v0]; omega)
    rw [v0] at hf
    rw [decode_eq_decC]
    simp only [List.cons_append, List.nil_append, List.getD_cons_zero, byteAt,
      List.getD_cons_succ, v0, v1, v2, v3]
    have hr := rune4_eq (c / 262144) (c / 4096 % 64) (c / 64 % 64) (c % 64) (by omega)
      (by omega) (by omega) (by omega)
    have hc' : c / 262144 * 262144 + c / 4096 % 64 * 4096 + c / 64 % 64 * 64 + c % 64 = c := by
      omega
    rw [hc'] at hr
    rcases hf with ⟨hb, hf⟩ | ⟨hb, hf⟩ | ⟨-, -, hf⟩
    · rw [hf, decC_four _ _ _ _ _ _ _ _ _ _ _ _ (by decide) (by decide) (by simp) (by
        show 0x90 ≤ _
        omega) (by
        show _ ≤ 0xBF
        omega) (by omega) (by omega) (by omega) (by omega), hr]
      rfl
    · rw [hf, decC_four _ _ _ _ _ _ _ _ _ _ _ _ (by decide) (by decide) (by simp) (by
        show 0x80 ≤ _
        omega) (by
        show _ ≤ 0x8F
        omega) (by omega) (by omega) (by omega) (by omega), hr]
      rfl
    · rw [hf, decC_four _ _ _ _ _ _ _ _ _ _ _ _ (by decide) (by decide) (by simp) (by
        show 0x80 ≤ _
        omega) (by
        show _ ≤ 0xBF
        omega) (by omega) (by omega) (by omega) (by omega), hr]
      rfl

/-- The runes of a well-formed UTF-8 text are the scalar values it encodes. -/
theorem runes_utf8 : ∀ cs : List Nat, (∀ c ∈ cs, IsScalar c) →
    runes (utf8 cs) = List.map (fun c : Nat => Int.ofNat c) cs := by
  intro cs
  induction cs with
  | nil => intro _; rfl
  | cons c cs ih =>
    intro h
    obtain ⟨hd, hl⟩ := decode_utf8Bytes c (utf8 cs) (h c (List.mem_cons_self _ _))
    have hne : utf8Bytes c ++ utf8 cs ≠ [] := by
      intro h0
      have hlen : (utf8Bytes c ++ utf8 cs).length = 0 := by rw [h0]; rfl
      rw [List.length_append] at hlen
      omega
    show runes (utf8Bytes c ++ utf8 cs) = _
    rw [runes_cons _ hne, hd]
    simp only [List.drop_left, List.map_cons]
    rw [ih (fun x hx => h x (List.mem_cons_of_mem _ hx))]
    rfl

/-- The examples of UTF-8 texts: three ellipsis characters take nine bytes. -/
theorem utf8_examples :
    utf8 [0x2026, 0x2026, 0x2026]
      = [0xE2, 0x80, 0xA6, 0xE2, 0x80, 0xA6, 0xE2, 0x80, 0xA6] ∧
    utf8 [0x48, 0xE9, 0x20AC, 0x1F600] = [0x48, 0xC3, 0xA9, 0xE2, 0x82, 0xAC, 0xF0, 0x9F, 0x98,
      0x80] := by
  decide

/-! ## Theorems: the loops of `unsafe_fill` -/

theorem setCell_some (cs : List Cell) (off : Int) (c : Cell) (h0 : 0 ≤ off)
    (h1 : off < cs.length) : setCell cs off c = some (cs.set off.toNat c) := by
  unfold setCell; rw [if_pos ⟨h0, h1⟩]

theorem getElem?_set_int (cs : List Cell) (off : Int) (c : Cell) (j : Nat) (h0 : 0 ≤ off)
    (h1 : off < cs.length) :
    (cs.set off.toNat c)[j]? = if off = (j : Int) then some c else cs[j]? := by
  rw [List.getElem?_set]
  by_cases h : off = (j : Int)
  · have : off.toNat = j := by omega
    rw [if_pos this, if_pos h, if_pos (by omega)]
  · have : ¬ off.toNat = j := by omega
    rw [if_neg this, if_neg h]

theorem fillRow_spec (proto : Cell) : ∀ (k : Nat) (cs : List Cell) (off : Int),
    0 ≤ off → off + k ≤ cs.length →
    ∃ cs', fillRow proto k cs off = some (cs', off + k) ∧ cs'.length = cs.length ∧
      ∀ j : Nat, cs'[j]? = if off ≤ (j : Int) ∧ (j : Int) < off + k then some proto
        else cs[j]? := by
  intro k
  induction k with
  | zero =>
    intro cs off h0 h1
    refine ⟨cs, by simp [fillRow], rfl, fun j => ?_⟩
    rw [if_neg (by push_cast; omega)]
  | succ k ih =>
    intro cs off h0 h1
    push_cast at h1
    obtain ⟨cs', e1, e2, e3⟩ := ih (cs.set off.toNat proto) (off + 1) (by omega)
      (by rw [List.length_set]; omega)
    refine ⟨cs', ?_, ?_, fun j => ?_⟩
    · simp only [fillRow, setCell_some cs off proto h0 (by omega), Option.some_bind, e1]
      push_cast
      rw [add_assoc, add_comm 1 (k : Int)]
    · rw [e2, List.length_set]
    · rw [e3, getElem?_set_int cs off proto j h0 (by omega)]
      push_cast
      split_ifs <;> first | rfl | (exfalso; omega)

theorem fillRows_spec (proto : Cell) (w : Nat) (stride : Int) (hs : 0 ≤ (w : Int) + stride) :
    ∀ (k : Nat) (cs : List Cell) (off : Int), 0 ≤ off →
    (∀ i : Nat, i < k → off + i * (w + stride) + w ≤ cs.length) →
    ∃ cs', fillRows proto w stride k cs off = some cs' ∧ cs'.length = cs.length ∧
      (∀ j : Nat, (∃ i : Nat, i < k ∧ off + i * (w + stride) ≤ j ∧
          (j : Int) < off + i * (w + stride) + w) → cs'[j]? = some proto) ∧
      (∀ j : Nat, (¬ ∃ i : Nat, i < k ∧ off + i * (w + stride) ≤ j ∧
          (j : Int) < off + i * (w + stride) + w) → cs'[j]? = cs[j]?) := by
  intro k
  induction k with
  | zero =>
    intro cs off h0 h1
    refine ⟨cs, by simp [fillRows], rfl, ?_, fun j _ => rfl⟩
    rintro j ⟨i, hi, -⟩
    omega
  | succ k ih =>
    intro cs off h0 h1
    obtain ⟨cs1, r1, r2, r3⟩ := fillRow_spec proto w cs off h0 (by
      have := h1 0 (by omega)
      simpa using this)
    obtain ⟨cs', e1, e2, e3, e4⟩ := ih cs1 (off + w + stride) (by omega) (by
      intro i hi
      have := h1 (i + 1) (by omega)
      rw [r2]
      push_cast at this
      linarith)
    refine ⟨cs', ?_, by rw [e2, r2], ?_, ?_⟩
    · simp only [fillRows, r1, Option.some_bind, e1]
    · rintro j ⟨i, hi, hj1, hj2⟩
      by_cases hex : ∃ i : Nat, i < k ∧ off + w + stride + i * (w + stride) ≤ j ∧
          (j : Int) < off + w + stride + i * (w + stride) + w
      · exact e3 j hex
      · rw [e4 j hex, r3 j]
        cases i with
        | zero =>
          rw [if_pos (by push_cast at hj1 hj2; constructor <;> linarith)]
        | succ i =>
          exfalso
          apply hex
          refine ⟨i, by omega, ?_, ?_⟩
          · push_cast at hj1; linarith
          · push_cast at hj2; linarith
    · intro j hj
      have hex : ¬ ∃ i : Nat, i < k ∧ off + w + stride + i * (w + stride) ≤ j ∧
          (j : Int) < off + w + stride + i * (w + stride) + w := by
        rintro ⟨i, hi, hj1, hj2⟩
        apply hj
        refine ⟨i + 1, by omega, ?_, ?_⟩
        · push_cast; linarith
        · push_cast; linarith
      rw [e4 j hex, r3 j, if_neg]
      intro hc
      apply hj
      exact ⟨0, by omega, by push_cast; linarith [hc.1], by push_cast; linarith [hc.2]⟩

/-! ## Theorems: `Fill` -/

/-- Clipping against the bounds of a buffer: the result is the empty `{0, 0, 0, 0}` or a
non-empty rect inside both rects. -/
theorem inter_bounds (b : Buffer) (d : Rect) :
    d.Intersection b.Rect = ⟨0, 0, 0, 0⟩ ∨
    (0 ≤ (d.Intersection b.Rect).X ∧ 0 < (d.Intersection b.Rect).Width ∧
      (d.Intersection b.Rect).X + (d.Intersection b.Rect).Width ≤ b.Width ∧
      0 ≤ (d.Intersection b.Rect).Y ∧ 0 < (d.Intersection b.Rect).Height ∧
      (d.Intersection b.Rect).Y + (d.Intersection b.Rect).Height ≤ b.Height ∧
      d.X ≤ (d.Intersection b.Rect).X ∧ d.Y ≤ (d.Intersection b.Rect).Y ∧
      (d.Intersection b.Rect).X + (d.Intersection b.Rect).Width ≤ d.X + d.Width ∧
      (d.Intersection b.Rect).Y + (d.Intersection b.Rect).Height ≤ d.Y + d.Height) := by
  unfold Rect.Intersection Buffer.Rect
  dsimp only
  split_ifs with h
  · right
    dsimp only
    omega
  · left; rfl

/-- Row-major indices: a cell of row `y` lies between the ends of that row. -/
theorem row_index_unique (W x y x' y' : Int) (hx : 0 ≤ x) (hxW : x < W) (hx' : 0 ≤ x')
    (hxW' : x' < W) (h : y * W + x = y' * W + x') : y = y' ∧ x = x' := by
  have hy : y = y' := by
    rcases lt_trichotomy y y' with hlt | heq | hgt
    · exfalso
      have : (y + 1) * W ≤ y' * W := Int.mul_le_mul_of_nonneg_right (by omega) (by omega)
      linarith
    · exact heq
    · exfalso
      have : (y' + 1) * W ≤ y * W := Int.mul_le_mul_of_nonneg_right (by omega) (by omega)
      linarith
  subst hy
  exact ⟨rfl, by linarith⟩

theorem index_lt (W H x y : Int) (hx : 0 ≤ x) (hxW : x < W) (hy : 0 ≤ y) (hyH : y < H) :
    0 ≤ y * W + x ∧ y * W + x < W * H := by
  have h1 : 0 ≤ y * W := Int.mul_nonneg hy (by omega)
  have h2 : (y + 1) * W ≤ H * W := Int.mul_le_mul_of_nonneg_right (by omega) (by omega)
  constructor
  · omega
  · have : H * W = W * H := Int.mul_comm _ _
    linarith

/-- What `Fill` does, cell by cell. -/
theorem Fill_spec (b : Buffer) (d : Rect) (proto : Cell)
    (hinv : (b.Cells.length : Int) = b.Width * b.Height) :
    ∃ cs', Fill b d proto = some (b.withCells cs') ∧ cs'.length = b.Cells.length ∧
      (∀ x y : Int, (d.Intersection b.Rect).Contains x y →
        cs'[(y * b.Width + x).toNat]? = some proto) ∧
      (∀ x y : Int, 0 ≤ x → x < b.Width → 0 ≤ y → y < b.Height →
        ¬ (d.Intersection b.Rect).Contains x y →
        cs'[(y * b.Width + x).toNat]? = b.Cells[(y * b.Width + x).toNat]?) ∧
      ((d.Intersection b.Rect).Width = 0 ∨ (d.Intersection b.Rect).Height = 0 →
        cs' = b.Cells) := by
  unfold Fill
  rcases inter_bounds b d with he | ⟨hx, hw, hxw, hy, hh, hyh, -⟩
  · refine ⟨b.Cells, ?_, rfl, ?_, fun _ _ _ _ _ _ _ => rfl, fun _ => rfl⟩
    · rw [he]
      simp [unsafe_fill, fillRows, Buffer.withCells]
    · intro x y hc
      rw [he] at hc
      unfold Rect.Contains at hc
      dsimp only at hc
      omega
  · generalize d.Intersection b.Rect = r at *
    have hW : 0 ≤ b.Width := by omega
    obtain ⟨w, hwr⟩ : ∃ w : Nat, r.Width = w := ⟨r.Width.toNat, by omega⟩
    obtain ⟨h, hhr⟩ : ∃ h : Nat, r.Height = h := ⟨r.Height.toNat, by omega⟩
    have hstride : (w : Int) + (b.Width - r.Width) = b.Width := by omega
    obtain ⟨cs', e1, e2, e3, e4⟩ := fillRows_spec proto w (b.Width - r.Width) (by omega) h
      b.Cells (r.Y * b.Width + r.X) (by
        have := Int.mul_nonneg hy hW
        omega) (by
        intro i hi
        rw [hstride, hinv]
        have := (index_lt b.Width b.Height (r.X + w - 1) (r.Y + i) (by omega) (by omega)
          (by omega) (by omega)).2
        linarith)
    rw [hstride] at e3 e4
    refine ⟨cs', ?_, e2, ?_, ?_, ?_⟩
    · unfold unsafe_fill
      dsimp only
      have t1 : r.Width.toNat = w := by omega
      have t2 : r.Height.toNat = h := by omega
      rw [t1, t2, e1]
      rfl
    · intro x y hc
      unfold Rect.Contains at hc
      apply e3
      have hidx := index_lt b.Width b.Height x y (by omega) (by omega) (by omega) (by omega)
      refine ⟨(y - r.Y).toNat, by omega, ?_, ?_⟩
      · rw [Int.toNat_of_nonneg hidx.1, Int.toNat_of_nonneg (by omega)]
        linarith
      · rw [Int.toNat_of_nonneg hidx.1, Int.toNat_of_nonneg (by omega)]
        linarith
    · intro x y h0 h1 h2 h3 hnc
      apply e4
      rintro ⟨i, hi, hj1, hj2⟩
      have hidx := index_lt b.Width b.Height x y h0 h1 h2 h3
      rw [Int.toNat_of_nonneg hidx.1] at hj1 hj2
      apply hnc
      unfold Rect.Contains
      have hu := row_index_unique b.Width x y (y * b.Width + x - (r.Y + i) * b.Width)
        (r.Y + i) h0 h1 (by linarith) (by linarith) (by ring)
      obtain ⟨hy', hx'⟩ := hu
      refine ⟨by linarith, by linarith, by omega, by omega⟩
    · intro he
      omega

/-! ## Theorems: the drawing loops -/

theorem drawFirst_spec (params : LabelParams) : ∀ (rs : List Rune) (cs : List Cell)
    (off n : Int), 0 ≤ off → off + (min n.toNat rs.length : Nat) ≤ cs.length →
    ∃ cs', drawFirst params rs cs off n = some cs' ∧ cs'.length = cs.length ∧
      ∀ j : Nat, cs'[j]? =
        if off ≤ (j : Int) ∧ (j : Int) < off + (min n.toNat rs.length : Nat) then
          (rs[j - off.toNat]?).map fun r => (⟨r, params.Fg, params.Bg⟩ : Cell)
        else cs[j]? := by
  intro rs
  induction rs with
  | nil =>
    intro cs off n h0 h1
    refine ⟨cs, rfl, rfl, fun j => ?_⟩
    rw [if_neg (by simp)]
  | cons r rs ih =>
    intro cs off n h0 h1
    by_cases hn : n ≤ 0
    · refine ⟨cs, by simp [drawFirst, hn], rfl, fun j => ?_⟩
      have : n.toNat = 0 := by omega
      rw [if_neg (by rw [this]; simp)]
    · simp only [List.length_cons] at h1 ⊢
      have hm : min n.toNat (rs.length + 1) = min (n - 1).toNat rs.length + 1 := by omega
      rw [hm] at h1
      simp only [hm]
      have ih' := ih (cs.set off.toNat ⟨r, params.Fg, params.Bg⟩) (off + 1) (n - 1)
      generalize min (n - 1).toNat rs.length = m at *
      push_cast at h1
      obtain ⟨cs', e1, e2, e3⟩ := ih' (by omega) (by rw [List.length_set]; omega)
      refine ⟨cs', ?_, by rw [e2, List.length_set], fun j => ?_⟩
      · simp only [drawFirst, hn, if_false, setCell_some cs off _ h0 (by omega),
          Option.some_bind, e1]
      · rw [e3, getElem?_set_int cs off _ j h0 (by omega)]
        by_cases c1 : off = (j : Int)
        · have z : j - off.toNat = 0 := by omega
          rw [if_neg (by omega), if_pos c1, if_pos (by push_cast; omega), z]
          simp
        · rw [if_neg c1]
          by_cases c2 : off + 1 ≤ (j : Int) ∧ (j : Int) < off + 1 + (m : Nat)
          · have z : j - off.toNat = (j - (off + 1).toNat) + 1 := by omega
            rw [if_pos c2, if_pos (by push_cast; omega), z, List.getElem?_cons_succ]
          · rw [if_neg c2, if_neg (by push_cast; omega)]

theorem skipLoop_spec : ∀ (k : Nat) (x : GoString),
    ∃ x', skipLoop k x = some x' ∧ runes x' = (runes x).drop k := by
  intro k
  induction k with
  | zero => intro x; exact ⟨x, rfl, rfl⟩
  | succ k ih =>
    intro x
    by_cases hx : x = []
    · subst hx
      obtain ⟨x', e1, e2⟩ := ih []
      refine ⟨x', ?_, ?_⟩
      · simp only [skipLoop, decode_nil, sliceFrom]
        simpa using e1
      · rw [e2]; simp [runes_nil]
    · obtain ⟨s1, s2, -⟩ := decode_size x hx
      obtain ⟨x', e1, e2⟩ := ih (x.drop (DecodeRuneInString x).2)
      refine ⟨x', ?_, ?_⟩
      · simp only [skipLoop, sliceFrom]
        rw [if_pos ⟨by omega, by omega⟩]
        simpa using e1
      · rw [e2, runes_cons x hx, List.drop_succ_cons]

theorem sliceTo_some (s : GoString) (k : Nat) (h : k ≤ s.length) :
    sliceTo s ((s.length : Int) - (k : Int)) = some (s.take (s.length - k)) := by
  unfold sliceTo
  rw [if_pos ⟨by omega, by omega⟩]
  congr 2
  omega

theorem drawLast_spec (params : LabelParams) : ∀ (k : Nat) (cs : List Cell) (off : Int)
    (text : GoString), k ≤ (runes text).length → off < cs.length → (k : Int) ≤ off + 1 →
    ∃ cs', drawLast params k cs off text = some cs' ∧ cs'.length = cs.length ∧
      ∀ j : Nat, cs'[j]? =
        if off - k < (j : Int) ∧ (j : Int) ≤ off then
          ((runes text)[(runes text).length - 1 - (off.toNat - j)]?).map
            fun r => (⟨r, params.Fg, params.Bg⟩ : Cell)
        else cs[j]? := by
  intro k
  induction k with
  | zero =>
    intro cs off text _ _ _
    refine ⟨cs, rfl, rfl, fun j => ?_⟩
    rw [if_neg (by push_cast; omega)]
  | succ k ih =>
    intro cs off text hk hoff hk2
    have ht : text ≠ [] := by
      rintro rfl
      simp [runes_nil] at hk
    obtain ⟨d1, d2, d3⟩ := decodeLast_spec text ht
    have hL : (runes text).length
        = (runes (text.take (text.length - (DecodeLastRuneInString text).2))).length + 1 := by
      conv_lhs => rw [d3]
      simp
    push_cast at hk2
    obtain ⟨cs', e1, e2, e3⟩ := ih
      (cs.set off.toNat ⟨(DecodeLastRuneInString text).1, params.Fg, params.Bg⟩) (off - 1)
      (text.take (text.length - (DecodeLastRuneInString text).2)) (by omega)
      (by rw [List.length_set]; omega) (by omega)
    refine ⟨cs', ?_, by rw [e2, List.length_set], fun j => ?_⟩
    · simp only [drawLast, setCell_some cs off _ (by omega) hoff, Option.some_bind,
        sliceTo_some text _ d2, e1]
    · rw [e3, getElem?_set_int cs off _ j (by omega) hoff]
      push_cast
      by_cases c1 : off = (j : Int)
      · have z : (runes text).length - 1 - (off.toNat - j)
            = (runes (text.take (text.length - (DecodeLastRuneInString text).2))).length := by
          omega
        rw [if_neg (by omega), if_pos c1, if_pos (by omega), z]
        conv_rhs => rw [d3]
        simp
      · rw [if_neg c1]
        by_cases c2 : off - 1 - (k : Int) < (j : Int) ∧ (j : Int) ≤ off - 1
        · rw [if_pos c2, if_pos (by omega)]
          have z : (runes text).length - 1 - (off.toNat - j)
            = (runes (text.take (text.length - (DecodeLastRuneInString text).2))).length - 1
              - ((off - 1).toNat - j) := by omega
          rw [z]
          conv_rhs => rw [d3]
          rw [List.getElem?_append_left (by omega)]
        · rw [if_neg c2, if_neg (by omega)]

theorem map_getElem?_runeAt (params : LabelParams) (rs : List Rune) (k : Nat) (i : Int)
    (hk : k < rs.length) (hi : i = (k : Int)) :
    (rs[k]?).map (fun r => (⟨r, params.Fg, params.Bg⟩ : Cell))
      = some (params.cell (runeAt rs i)) := by
  subst hi
  rw [List.getElem?_eq_getElem hk]
  simp [runeAt, LabelParams.cell, List.getD_eq_getElem?_getD, List.getElem?_eq_getElem hk]

/-- The method `draw_n_first_runes` writes the first `min n len` runes of the text from `off` on. -/
theorem draw_first_spec (b : Buffer) (off n : Int) (params : LabelParams) (text : GoString)
    (m : Int) (hm : m = min n.toNat (runes text).length)
    (h0 : 0 ≤ off) (h1 : off + m ≤ b.Cells.length) :
    ∃ cs', draw_n_first_runes b off n params text = some (b.withCells cs') ∧
      cs'.length = b.Cells.length ∧
      ∀ j : Nat, cs'[j]? =
        if off ≤ (j : Int) ∧ (j : Int) < off + m then
          some (params.cell (runeAt (runes text) (j - off)))
        else b.Cells[j]? := by
  subst hm
  obtain ⟨cs', e1, e2, e3⟩ := drawFirst_spec params (runes text) b.Cells off n h0
    (by push_cast at h1 ⊢; exact h1)
  refine ⟨cs', by simp [draw_n_first_runes, e1], e2, fun j => ?_⟩
  rw [e3]
  push_cast
  by_cases c : off ≤ (j : Int) ∧ (j : Int) < off + min (n.toNat : Int) ((runes text).length : Int)
  · rw [if_pos c, if_pos c]
    exact map_getElem?_runeAt params _ _ _ (by omega) (by omega)
  · rw [if_neg c, if_neg c]

/-- The method `draw_n_last_runes` writes the last `n` runes of the text, the last one at `off`. -/
theorem draw_last_spec (b : Buffer) (off n : Int) (params : LabelParams) (text : GoString)
    (hn : n ≤ (runes text).length) (h0 : off < b.Cells.length) (h1 : n ≤ off + 1) :
    ∃ cs', draw_n_last_runes b off n params text = some (b.withCells cs') ∧
      cs'.length = b.Cells.length ∧
      ∀ j : Nat, cs'[j]? =
        if off - n < (j : Int) ∧ (j : Int) ≤ off ∧ 0 < n then
          some (params.cell (runeAt (runes text) ((runes text).length - 1 - (off - j))))
        else b.Cells[j]? := by
  by_cases hz : n ≤ 0
  · have z : n.toNat = 0 := by omega
    refine ⟨b.Cells, by simp [draw_n_last_runes, z, drawLast], rfl, fun j => ?_⟩
    rw [if_neg (by omega)]
  obtain ⟨cs', e1, e2, e3⟩ := drawLast_spec params n.toNat b.Cells off text (by omega) h0
    (by omega)
  refine ⟨cs', by simp [draw_n_last_runes, e1], e2, fun j => ?_⟩
  rw [e3]
  by_cases c : off - n < (j : Int) ∧ (j : Int) ≤ off ∧ 0 < n
  · rw [if_pos (by omega), if_pos c]
    exact map_getElem?_runeAt params _ _ _ (by omega) (by omega)
  · rw [if_neg (by omega), if_neg c]

theorem skip_spec (x : GoString) (n : Int) (hn : 0 ≤ n) :
    ∃ x', skip_n_runes x n = some x' ∧ runes x' = (runes x).drop n.toNat := by
  unfold skip_n_runes
  by_cases h : n ≤ 0
  · rw [if_pos h]
    have : n.toNat = 0 := by omega
    exact ⟨x, rfl, by rw [this]; rfl⟩
  · rw [if_neg h]
    exact skipLoop_spec n.toNat x

theorem runeAt_drop (rs : List Rune) (k : Nat) (i : Int) (hi : 0 ≤ i) :
    runeAt (rs.drop k) i = runeAt rs (k + i) := by
  unfold runeAt
  have : ((k : Int) + i).toNat = k + i.toNat := by omega
  rw [this]
  simp [List.getD_eq_getElem?_getD, List.getElem?_drop]

theorem withCells_cells (b : Buffer) (cs : List Cell) : (b.withCells cs).Cells = cs := rfl

theorem withCells_withCells (b : Buffer) (cs cs2 : List Cell) :
    (b.withCells cs).withCells cs2 = b.withCells cs2 := rfl

theorem withCells_self (b : Buffer) : b.withCells b.Cells = b := rfl

/-! ## Theorems: `DrawLabel` on one row -/

theorem tdiv_two (a : Int) (h : 0 ≤ a) : a.tdiv 2 = a / 2 :=
  Int.tdiv_eq_ediv h (by omega)

theorem setCell_spec (cs : List Cell) (off : Int) (c : Cell) (h0 : 0 ≤ off)
    (h1 : off < cs.length) :
    ∃ cs', setCell cs off c = some cs' ∧ cs'.length = cs.length ∧
      ∀ j : Nat, cs'[j]? = if off = (j : Int) then some c else cs[j]? :=
  ⟨cs.set off.toNat c, setCell_some cs off c h0 h1, List.length_set _ _ _,
    fun j => getElem?_set_int cs off c j h0 h1⟩

theorem runeCount_eq (text : GoString) :
    RuneCountInString text = ((runes text).length : Int) := rfl

/-- The overflow case with the ellipsis in the centre. -/
theorem row_overflow_centerEllipsis (b : Buffer) (off w : Int) (params : LabelParams)
    (text : GoString) (h0 : 0 ≤ off) (hw : 0 < w) (hlen : off + w ≤ b.Cells.length)
    (hov : ((runes text).length : Int) > w) (hce : params.CenterEllipsis = true) :
    ∃ cs', (drawEllipsis b off w params).bind (fun p =>
        drawText p.1 off w (RuneCountInString text) p.2 params text) = some (b.withCells cs') ∧
      cs'.length = b.Cells.length ∧
      ∀ j : Nat, cs'[j]? =
        if off ≤ (j : Int) ∧ (j : Int) < off + w then
          paint params (b.Cells[j]?) (labelRune params w (runes text) (j - off))
        else b.Cells[j]? := by
  have hd : w.tdiv 2 = w / 2 := tdiv_two w (by omega)
  obtain ⟨cs1, e1, l1, g1⟩ := setCell_spec b.Cells (off + w / 2) (params.cell params.Ellipsis)
    (by omega) (by omega)
  have hE : drawEllipsis b off w params = some (b.withCells cs1, w - 1) := by
    unfold drawEllipsis
    simp only [hce, if_true, hd]
    rw [show (⟨params.Ellipsis, params.Fg, params.Bg⟩ : Cell) = params.cell params.Ellipsis
      from rfl, e1]
    rfl
  rw [hE, Option.some_bind, runeCount_eq]
  unfold drawText
  dsimp only
  by_cases hn : w - 1 ≤ 0
  · rw [if_pos hn]
    refine ⟨cs1, rfl, l1, fun j => ?_⟩
    rw [g1]
    unfold labelRune
    simp only [hov, hce, if_true]
    split_ifs <;> first | rfl | (exfalso; omega)
  · rw [if_neg hn, if_pos ⟨hce, by omega⟩, hd]
    obtain ⟨cs2, e2, l2, g2⟩ := draw_first_spec (b.withCells cs1) off (w / 2) params text
      (w / 2) (by omega) h0 (by rw [withCells_cells, l1]; omega)
    obtain ⟨cs3, e3, l3, g3⟩ := draw_last_spec ((b.withCells cs1).withCells cs2)
      (off + (w - 1)) (w - 1 - w / 2) params text (by omega)
      (by rw [withCells_cells, l2, withCells_cells, l1]; omega) (by omega)
    rw [e2, Option.some_bind, e3]
    refine ⟨cs3, rfl, by rw [l3, withCells_cells, l2, withCells_cells, l1], fun j => ?_⟩
    rw [g3, withCells_cells, g2, withCells_cells, g1]
    unfold labelRune
    simp only [hov, hce, if_true]
    split_ifs <;> first | rfl | (exfalso; omega) | (unfold paint; congr 3; omega)

/-- The overflow case with the ellipsis at an end, or at both ends. -/
theorem row_overflow_aligned (b : Buffer) (off w : Int) (params : LabelParams)
    (text : GoString) (h0 : 0 ≤ off) (hw : 0 < w) (hlen : off + w ≤ b.Cells.length)
    (hov : ((runes text).length : Int) > w) (hce : params.CenterEllipsis = false) :
    ∃ cs', (drawEllipsis b off w params).bind (fun p =>
        drawText p.1 off w (RuneCountInString text) p.2 params text) = some (b.withCells cs') ∧
      cs'.length = b.Cells.length ∧
      ∀ j : Nat, cs'[j]? =
        if off ≤ (j : Int) ∧ (j : Int) < off + w then
          paint params (b.Cells[j]?) (labelRune params w (runes text) (j - off))
        else b.Cells[j]? := by
  have hcell : (⟨params.Ellipsis, params.Fg, params.Bg⟩ : Cell) = params.cell params.Ellipsis :=
    rfl
  have hLC : ¬ AlignCenter = AlignLeft := by decide
  have hLR : ¬ AlignRight = AlignLeft := by decide
  have hCR : ¬ AlignRight = AlignCenter := by decide
  by_cases hL : params.Align = AlignLeft
  · -- ellipsis in the last column, the first `w - 1` runes before it
    obtain ⟨cs1, e1, l1, g1⟩ := setCell_spec b.Cells (off + w - 1)
      (params.cell params.Ellipsis) (by omega) (by omega)
    have hE : drawEllipsis b off w params = some (b.withCells cs1, w - 1) := by
      unfold drawEllipsis
      simp only [hce, hL, if_true, hcell, e1]
      rfl
    rw [hE, Option.some_bind, runeCount_eq]
    unfold drawText
    dsimp only
    by_cases hn : w - 1 ≤ 0
    · rw [if_pos hn]
      refine ⟨cs1, rfl, l1, fun j => ?_⟩
      rw [g1]
      unfold labelRune
      simp only [hov, hce, hL, if_true, Bool.false_eq_true, if_false]
      split_ifs <;> first | rfl | (exfalso; omega)
    · rw [if_neg hn, if_neg (by simp [hce]), if_pos hL]
      obtain ⟨cs2, e2, l2, g2⟩ := draw_first_spec (b.withCells cs1) off (w - 1) params text
        (w - 1) (by omega) h0 (by rw [withCells_cells, l1]; omega)
      rw [e2]
      refine ⟨cs2, rfl, by rw [l2, withCells_cells, l1], fun j => ?_⟩
      rw [g2, withCells_cells, g1]
      unfold labelRune
      simp only [hov, hce, hL, if_true, Bool.false_eq_true, if_false]
      split_ifs <;> first | rfl | (exfalso; omega)
  by_cases hC : params.Align = AlignCenter
  · -- ellipsis in the first and the last column, a middle slice between them
    obtain ⟨cs1, e1, l1, g1⟩ := setCell_spec b.Cells off (params.cell params.Ellipsis)
      (by omega) (by omega)
    obtain ⟨cs1', e1', l1', g1'⟩ := setCell_spec cs1 (off + w - 1)
      (params.cell params.Ellipsis) (by omega) (by omega)
    have hE : drawEllipsis b off w params = some (b.withCells cs1', w - 1 - 1) := by
      unfold drawEllipsis
      simp only [hce, hC, hLC, if_true, if_false, hcell, e1, Option.some_bind, e1']
      rfl
    rw [hE, Option.some_bind, runeCount_eq]
    unfold drawText
    dsimp only
    by_cases hn : w - 1 - 1 ≤ 0
    · rw [if_pos hn]
      refine ⟨cs1', rfl, by rw [l1', l1], fun j => ?_⟩
      rw [g1', g1]
      unfold labelRune
      simp only [hov, hce, hC, hLC, if_true, Bool.false_eq_true, if_false]
      split_ifs <;> first | rfl | (exfalso; omega)
    · rw [if_neg hn, if_neg (by simp [hce]), if_neg (by rw [hC]; exact hLC), if_pos hC,
        if_neg (by omega)]
      have hmid : (((runes text).length : Int) - (w - 1 - 1)).tdiv 2
          = (((runes text).length : Int) - (w - 1 - 1)) / 2 := tdiv_two _ (by omega)
      rw [hmid]
      obtain ⟨t, s1, s2⟩ := skip_spec text ((((runes text).length : Int) - (w - 1 - 1)) / 2)
        (by omega)
      rw [s1, Option.some_bind]
      obtain ⟨cs2, e2, l2, g2⟩ := draw_first_spec (b.withCells cs1') (off + 1) (w - 1 - 1)
        params t (w - 1 - 1) (by rw [s2, List.length_drop]; omega) (by omega)
        (by rw [withCells_cells, l1', l1]; omega)
      rw [e2]
      refine ⟨cs2, rfl, by rw [l2, withCells_cells, l1', l1], fun j => ?_⟩
      rw [g2, withCells_cells, g1', g1, s2]
      unfold labelRune
      simp only [hov, hce, hC, hLC, if_true, Bool.false_eq_true, if_false]
      by_cases hj : off + 1 ≤ (j : Int) ∧ (j : Int) < off + 1 + (w - 1 - 1)
      · rw [if_pos hj, runeAt_drop _ _ _ (by omega), Int.toNat_of_nonneg (by omega)]
        split_ifs <;> first | rfl | (exfalso; omega) | (unfold paint; congr 3; omega)
      · rw [if_neg hj]
        split_ifs <;> first | rfl | (exfalso; omega)
  by_cases hR : params.Align = AlignRight
  · -- ellipsis in the first column, the last `w - 1` runes after it
    obtain ⟨cs1, e1, l1, g1⟩ := setCell_spec b.Cells off (params.cell params.Ellipsis)
      (by omega) (by omega)
    have hE : drawEllipsis b off w params = some (b.withCells cs1, w - 1) := by
      unfold drawEllipsis
      simp only [hce, hR, hLR, hCR, if_true, if_false, hcell, e1]
      rfl
    rw [hE, Option.some_bind, runeCount_eq]
    unfold drawText
    dsimp only
    by_cases hn : w - 1 ≤ 0
    · rw [if_pos hn]
      refine ⟨cs1, rfl, l1, fun j => ?_⟩
      rw [g1]
      unfold labelRune
      simp only [hov, hce, hR, hLR, hCR, if_true, Bool.false_eq_true, if_false]
      split_ifs <;> first | rfl | (exfalso; omega)
    · rw [if_neg hn, if_neg (by simp [hce]), if_neg (by rw [hR]; exact hLR),
        if_neg (by rw [hR]; exact hCR), if_pos hR]
      obtain ⟨cs2, e2, l2, g2⟩ := draw_last_spec (b.withCells cs1) (off + (w - 1)) (w - 1)
        params text (by omega) (by rw [withCells_cells, l1]; omega) (by omega)
      rw [e2]
      refine ⟨cs2, rfl, by rw [l2, withCells_cells, l1], fun j => ?_⟩
      rw [g2, withCells_cells, g1]
      unfold labelRune
      simp only [hov, hce, hR, hLR, hCR, if_true, Bool.false_eq_true, if_false]
      split_ifs <;> first | rfl | (exfalso; omega) | (unfold paint; congr 3; omega)
  · -- an alignment outside the enumeration: nothing is written
    have hE : drawEllipsis b off w params = some (b, w - 1) := by
      unfold drawEllipsis
      simp only [hce, hL, hC, hR, if_false]
      rfl
    rw [hE, Option.some_bind, runeCount_eq]
    refine ⟨b.Cells, ?_, rfl, fun j => ?_⟩
    · unfold drawText
      dsimp only
      simp only [hce, hL, hC, hR, if_false]
      split_ifs <;> first | rfl | (simp_all)
    · unfold labelRune
      simp only [hov, hce, hL, hC, hR, if_true, Bool.false_eq_true, if_false]
      split_ifs <;> rfl

/-- The case of a text that fits. -/
theorem row_fit (b : Buffer) (off w : Int) (params : LabelParams)
    (text : GoString) (h0 : 0 ≤ off) (hlen : off + w ≤ b.Cells.length)
    (hfit : ¬ ((runes text).length : Int) > w) :
    ∃ cs', drawText b off w (RuneCountInString text) (RuneCountInString text) params text
        = some (b.withCells cs') ∧
      cs'.length = b.Cells.length ∧
      ∀ j : Nat, cs'[j]? =
        if off ≤ (j : Int) ∧ (j : Int) < off + w then
          paint params (b.Cells[j]?) (labelRune params w (runes text) (j - off))
        else b.Cells[j]? := by
  have hLC : ¬ AlignCenter = AlignLeft := by decide
  have hLR : ¬ AlignRight = AlignLeft := by decide
  have hCR : ¬ AlignRight = AlignCenter := by decide
  rw [runeCount_eq]
  unfold drawText
  dsimp only
  by_cases hn : ((runes text).length : Int) ≤ 0
  · rw [if_pos hn]
    refine ⟨b.Cells, rfl, rfl, fun j => ?_⟩
    unfold labelRune
    simp only [hfit, if_false]
    split_ifs <;> first | rfl | (exfalso; omega)
  rw [if_neg hn, if_neg (by simp)]
  by_cases hL : params.Align = AlignLeft
  · rw [if_pos hL]
    obtain ⟨cs2, e2, l2, g2⟩ := draw_first_spec b off (runes text).length params text
      (runes text).length (by omega) h0 (by omega)
    rw [e2]
    refine ⟨cs2, rfl, l2, fun j => ?_⟩
    rw [g2]
    unfold labelRune
    simp only [hfit, hL, if_true, if_false]
    split_ifs <;> first | rfl | (exfalso; omega)
  rw [if_neg hL]
  by_cases hC : params.Align = AlignCenter
  · rw [if_pos hC, if_pos rfl, tdiv_two _ (by omega)]
    obtain ⟨cs2, e2, l2, g2⟩ := draw_first_spec b
      (off + (w - ((runes text).length : Int)) / 2) (runes text).length params text
      (runes text).length (by omega) (by omega) (by omega)
    rw [e2]
    refine ⟨cs2, rfl, l2, fun j => ?_⟩
    rw [g2]
    unfold labelRune
    simp only [hfit, hC, hLC, if_true, if_false]
    split_ifs <;> first | rfl | (exfalso; omega) | (unfold paint; congr 3; omega)
  rw [if_neg hC]
  by_cases hR : params.Align = AlignRight
  · rw [if_pos hR]
    obtain ⟨cs2, e2, l2, g2⟩ := draw_last_spec b (off + (w - 1)) (runes text).length params
      text (by omega) (by omega) (by omega)
    rw [e2]
    refine ⟨cs2, rfl, l2, fun j => ?_⟩
    rw [g2]
    unfold labelRune
    simp only [hfit, hR, hLR, hCR, if_true, if_false]
    split_ifs <;> first | rfl | (exfalso; omega) | (unfold paint; congr 3; omega)
  · rw [if_neg hR]
    refine ⟨b.Cells, rfl, rfl, fun j => ?_⟩
    unfold labelRune
    simp only [hfit, hL, hC, hR, if_false]
    split_ifs <;> rfl

/-- What `DrawLabel` does to a row of `w` cells from index `off` on. -/
theorem label_row_spec (b : Buffer) (off w : Int) (params : LabelParams)
    (text : GoString) (h0 : 0 ≤ off) (hw : 0 < w) (hlen : off + w ≤ b.Cells.length) :
    ∃ cs', (if RuneCountInString text > w then
          (drawEllipsis b off w params).bind fun p =>
            drawText p.1 off w (RuneCountInString text) p.2 params text
        else drawText b off w (RuneCountInString text) (RuneCountInString text) params text)
        = some (b.withCells cs') ∧
      cs'.length = b.Cells.length ∧
      ∀ j : Nat, cs'[j]? =
        if off ≤ (j : Int) ∧ (j : Int) < off + w then
          paint params (b.Cells[j]?) (labelRune params w (runes text) (j - off))
        else b.Cells[j]? := by
  by_cases hov : ((runes text).length : Int) > w
  · rw [if_pos (by rw [runeCount_eq]; exact hov)]
    cases hce : params.CenterEllipsis with
    | true => exact row_overflow_centerEllipsis b off w params text h0 hw hlen hov hce
    | false => exact row_overflow_aligned b off w params text h0 hw hlen hov hce
  · rw [if_neg (by rw [runeCount_eq]; exact hov)]
    exact row_fit b off w params text h0 hlen hov

/-! ## Theorems: `DrawLabel` -/

theorem DrawLabel_unfold (b : Buffer) (dest : Rect) (params : LabelParams) (text : GoString) :
    DrawLabel b dest params text =
      if (clipRow b dest).Height = 0 ∨ (clipRow b dest).Width = 0 then some b
      else if RuneCountInString text > (clipRow b dest).Width then
        (drawEllipsis b ((clipRow b dest).Y * b.Width + (clipRow b dest).X)
          (clipRow b dest).Width params).bind fun p =>
            drawText p.1 ((clipRow b dest).Y * b.Width + (clipRow b dest).X)
              (clipRow b dest).Width (RuneCountInString text) p.2 params text
      else drawText b ((clipRow b dest).Y * b.Width + (clipRow b dest).X)
        (clipRow b dest).Width (RuneCountInString text) (RuneCountInString text) params text := by
  have hd : (if dest.Height ≠ 1 then (⟨dest.X, dest.Y, dest.Width, 1⟩ : Rect) else dest)
      = ⟨dest.X, dest.Y, dest.Width, 1⟩ := by
    split_ifs with h
    · rfl
    · have h1 : dest.Height = 1 := not_not.mp h
      cases dest
      simp only at h1
      subst h1
      rfl
  unfold DrawLabel clipRow
  simp only [hd]

/-- The clipped row is empty, `{0, 0, 0, 0}`, or one row of the buffer inside `dest`. -/
theorem clipRow_bounds (b : Buffer) (dest : Rect) :
    clipRow b dest = ⟨0, 0, 0, 0⟩ ∨
    (0 ≤ (clipRow b dest).X ∧ 0 < (clipRow b dest).Width ∧
      (clipRow b dest).X + (clipRow b dest).Width ≤ b.Width ∧
      (clipRow b dest).Y = dest.Y ∧ 0 ≤ dest.Y ∧ dest.Y < b.Height ∧
      (clipRow b dest).Height = 1 ∧ dest.X ≤ (clipRow b dest).X ∧
      (clipRow b dest).X + (clipRow b dest).Width ≤ dest.X + dest.Width) := by
  unfold clipRow Rect.Intersection Buffer.Rect
  dsimp only
  split_ifs with h
  · right
    dsimp only
    omega
  · left; rfl

/-- What `DrawLabel` does, cell by cell. -/
theorem DrawLabel_spec (b : Buffer) (dest : Rect) (params : LabelParams) (text : GoString)
    (hinv : (b.Cells.length : Int) = b.Width * b.Height) :
    ∃ b', DrawLabel b dest params text = some b' ∧ b'.Width = b.Width ∧
      b'.Height = b.Height ∧ b'.Spare = b.Spare ∧ b'.Cells.length = b.Cells.length ∧
      (∀ i : Int, 0 ≤ i → i < (clipRow b dest).Width →
        b'.cellAt ((clipRow b dest).X + i) (clipRow b dest).Y =
          paint params (b.cellAt ((clipRow b dest).X + i) (clipRow b dest).Y)
            (labelRune params (clipRow b dest).Width (runes text) i)) ∧
      (∀ x y : Int, 0 ≤ x → x < b.Width → 0 ≤ y → y < b.Height →
        ¬ (clipRow b dest).Contains x y → b'.cellAt x y = b.cellAt x y) ∧
      ((clipRow b dest).Width = 0 → b' = b) := by
  rw [DrawLabel_unfold]
  rcases clipRow_bounds b dest with he | ⟨hx, hw, hxw, hy, hy0, hyH, hh, -, -⟩
  · rw [he]
    refine ⟨b, by simp, rfl, rfl, rfl, rfl, ?_, fun _ _ _ _ _ _ _ => rfl, fun _ => rfl⟩
    intro i h1 h2
    dsimp only at h2
    omega
  · generalize clipRow b dest = r at *
    have hidx := index_lt b.Width b.Height r.X r.Y hx (by omega) (by omega) (by omega)
    have hidx2 := index_lt b.Width b.Height (r.X + r.Width - 1) r.Y (by omega) (by omega)
      (by omega) (by omega)
    obtain ⟨cs', e1, e2, e3⟩ := label_row_spec b (r.Y * b.Width + r.X) r.Width params text
      hidx.1 hw (by rw [hinv]; omega)
    rw [if_neg (by omega), e1]
    refine ⟨b.withCells cs', rfl, rfl, rfl, rfl, e2, ?_, ?_, fun h => by omega⟩
    · intro i h1 h2
      unfold Buffer.cellAt
      have t : ((r.Y * (b.withCells cs').Width + (r.X + i)).toNat : Int)
          = r.Y * b.Width + r.X + i := by
        rw [Int.toNat_of_nonneg (by
          show 0 ≤ r.Y * b.Width + (r.X + i)
          omega)]
        show r.Y * b.Width + (r.X + i) = _
        omega
      have t' : (r.Y * b.Width + (r.X + i)).toNat = (r.Y * (b.withCells cs').Width + (r.X + i)).toNat := rfl
      rw [withCells_cells, e3, t, t', if_pos (by omega)]
      congr 2
      omega
    · intro x y h1 h2 h3 h4 hnc
      unfold Buffer.cellAt
      have hi := index_lt b.Width b.Height x y h1 h2 h3 h4
      have t' : (y * b.Width + x).toNat = (y * (b.withCells cs').Width + x).toNat := rfl
      rw [withCells_cells, e3, ← t', Int.toNat_of_nonneg hi.1, if_neg]
      rintro ⟨c1, c2⟩
      apply hnc
      have hu := row_index_unique b.Width x y (y * b.Width + x - r.Y * b.Width) r.Y h1 h2
        (by linarith) (by linarith) (by ring)
      unfold Rect.Contains
      obtain ⟨u1, u2⟩ := hu
      refine ⟨by linarith, by linarith, by omega, by omega⟩

/-! ## The claims -/

/-- C1: on a grid with `len(Cells) = Width*Height`, `Fill(d, proto)`
returns normally and afterwards every cell `(x, y)` of `Intersection(d, Bounds(g))`, that is
the cell at index `y*Width + x`, equals `proto`. -/
theorem Fill_sets_intersection (b : Buffer) (d : Rect) (proto : Cell)
    (hinv : (b.Cells.length : Int) = b.Width * b.Height) :
    ∃ b', Fill b d proto = some b' ∧
      ∀ x y : Int, (d.Intersection b.Rect).Contains x y →
        b'.Cells[(y * b.Width + x).toNat]? = some proto := by
  obtain ⟨cs', e1, -, e3, -, -⟩ := Fill_spec b d proto hinv
  exact ⟨b.withCells cs', e1, e3⟩

theorem Fill_sets_intersection_witness :
    (exGrid.Cells.length : Int) = exGrid.Width * exGrid.Height ∧
    ∃ b', Fill exGrid ⟨3, -1, 7, 2⟩ ⟨65, 1, 2⟩ = some b' ∧
      ∀ x y : Int, ((⟨3, -1, 7, 2⟩ : Rect).Intersection exGrid.Rect).Contains x y →
        b'.Cells[(y * exGrid.Width + x).toNat]? = some ⟨65, 1, 2⟩ :=
  ⟨by decide, Fill_sets_intersection exGrid ⟨3, -1, 7, 2⟩ ⟨65, 1, 2⟩ (by decide)⟩

/-- C2: on a grid with `len(Cells) = Width*Height`, `Fill(d, proto)` leaves `Width`,
`Height` and the number of cells unchanged, leaves every cell of the grid outside
`Intersection(d, Bounds(g))` unchanged, and leaves the grid entirely unchanged when the
intersection is empty. -/
theorem Fill_frame (b : Buffer) (d : Rect) (proto : Cell)
    (hinv : (b.Cells.length : Int) = b.Width * b.Height) :
    ∃ b', Fill b d proto = some b' ∧ b'.Width = b.Width ∧ b'.Height = b.Height ∧
      b'.Cells.length = b.Cells.length ∧
      (∀ x y : Int, 0 ≤ x → x < b.Width → 0 ≤ y → y < b.Height →
        ¬ (d.Intersection b.Rect).Contains x y →
        b'.Cells[(y * b.Width + x).toNat]? = b.Cells[(y * b.Width + x).toNat]?) ∧
      ((d.Intersection b.Rect).Width = 0 ∨ (d.Intersection b.Rect).Height = 0 → b' = b) := by
  obtain ⟨cs', e1, e2, -, e4, e5⟩ := Fill_spec b d proto hinv
  refine ⟨b.withCells cs', e1, rfl, rfl, e2, e4, fun h => ?_⟩
  rw [e5 h]
  rfl

theorem Fill_frame_witness :
    (exGrid.Cells.length : Int) = exGrid.Width * exGrid.Height ∧
    ∃ b', Fill exGrid ⟨3, -1, 7, 2⟩ ⟨65, 1, 2⟩ = some b' ∧ b'.Width = exGrid.Width ∧
      b'.Height = exGrid.Height ∧ b'.Cells.length = exGrid.Cells.length ∧
      (∀ x y : Int, 0 ≤ x → x < exGrid.Width → 0 ≤ y → y < exGrid.Height →
        ¬ ((⟨3, -1, 7, 2⟩ : Rect).Intersection exGrid.Rect).Contains x y →
        b'.Cells[(y * exGrid.Width + x).toNat]? = exGrid.Cells[(y * exGrid.Width + x).toNat]?) ∧
      (((⟨3, -1, 7, 2⟩ : Rect).Intersection exGrid.Rect).Width = 0 ∨
        ((⟨3, -1, 7, 2⟩ : Rect).Intersection exGrid.Rect).Height = 0 → b' = exGrid) :=
  ⟨by decide, Fill_frame exGrid ⟨3, -1, 7, 2⟩ ⟨65, 1, 2⟩ (by decide)⟩

theorem runeAt_getElem (rs : List Rune) (n : Nat) (i : Int) (hi : i = (n : Int))
    (hn : n < rs.length) : rs[n]? = some (runeAt rs i) := by
  subst hi
  simp [runeAt, List.getD_eq_getElem?_getD, List.getElem?_eq_getElem hn]

theorem runeAt_mem (rs : List Rune) (k : Int) (h0 : 0 ≤ k) (h1 : k < rs.length) :
    runeAt rs k ∈ rs := by
  have hk : k.toNat < rs.length := by omega
  have := runeAt_getElem rs k.toNat k (by omega) hk
  exact List.getElem?_mem this

/-- A rune that `DrawLabel` writes into a column of the row is the ellipsis or a rune of
the text. -/
theorem labelRune_mem (params : LabelParams) (w : Int) (rs : List Rune) (i : Int) (ch : Rune)
    (h0 : 0 ≤ i) (hi : i < w) (h : labelRune params w rs i = some ch) :
    ch = params.Ellipsis ∨ ch ∈ rs := by
  unfold labelRune at h
  split_ifs at h <;> first
    | (left; exact (Option.some.inj h).symm)
    | (right; rw [← Option.some.inj h]; exact runeAt_mem _ _ (by omega) (by omega))

/-- In the overflow case every column of the row is written, for an alignment of the
enumeration or with `CenterEllipsis`. -/
theorem labelRune_overflow (params : LabelParams) (w : Int) (rs : List Rune) (i : Int)
    (hov : (rs.length : Int) > w)
    (ha : params.CenterEllipsis = true ∨ IsAlignment params.Align) :
    ∃ ch, labelRune params w rs i = some ch := by
  unfold labelRune
  rw [if_pos hov]
  by_cases hce : params.CenterEllipsis = true
  · rw [if_pos hce]
    split_ifs <;> exact ⟨_, rfl⟩
  · rw [if_neg hce]
    rcases ha with ha | ha | ha | ha
    · exact absurd ha hce
    · rw [if_pos ha]; split_ifs <;> exact ⟨_, rfl⟩
    · have hLC : ¬ AlignCenter = AlignLeft := by decide
      rw [ha, if_neg hLC, if_pos rfl]; split_ifs <;> exact ⟨_, rfl⟩
    · have hLR : ¬ AlignRight = AlignLeft := by decide
      have hCR : ¬ AlignRight = AlignCenter := by decide
      rw [ha, if_neg hLR, if_neg hCR, if_pos rfl]; split_ifs <;> exact ⟨_, rfl⟩

/-- What `DrawLabel` does, index by index of `Cells`. -/
theorem DrawLabel_index_spec (b : Buffer) (dest : Rect) (params : LabelParams)
    (text : GoString) (hinv : (b.Cells.length : Int) = b.Width * b.Height) :
    ∃ cs', DrawLabel b dest params text = some (b.withCells cs') ∧
      cs'.length = b.Cells.length ∧
      ∀ j : Nat, cs'[j]? =
        if 0 < (clipRow b dest).Width ∧
            (clipRow b dest).Y * b.Width + (clipRow b dest).X ≤ (j : Int) ∧
            (j : Int) < (clipRow b dest).Y * b.Width + (clipRow b dest).X
              + (clipRow b dest).Width then
          paint params (b.Cells[j]?) (labelRune params (clipRow b dest).Width (runes text)
            (j - ((clipRow b dest).Y * b.Width + (clipRow b dest).X)))
        else b.Cells[j]? := by
  rw [DrawLabel_unfold]
  rcases clipRow_bounds b dest with he | ⟨hx, hw, hxw, hy, hy0, hyH, hh, -, -⟩
  · rw [he]
    refine ⟨b.Cells, by simp [withCells_self], rfl, fun j => ?_⟩
    rw [if_neg (by dsimp only; omega)]
  · generalize clipRow b dest = r at *
    have hidx := index_lt b.Width b.Height r.X r.Y hx (by omega) (by omega) (by omega)
    have hidx2 := index_lt b.Width b.Height (r.X + r.Width - 1) r.Y (by omega) (by omega)
      (by omega) (by omega)
    obtain ⟨cs', e1, e2, e3⟩ := label_row_spec b (r.Y * b.Width + r.X) r.Width params text
      hidx.1 hw (by rw [hinv]; omega)
    rw [if_neg (by omega), e1]
    refine ⟨cs', rfl, e2, fun j => ?_⟩
    rw [e3]
    by_cases c : r.Y * b.Width + r.X ≤ (j : Int) ∧ (j : Int) < r.Y * b.Width + r.X + r.Width
    · rw [if_pos c, if_pos ⟨hw, c⟩]
    · rw [if_neg c, if_neg (fun h => c h.2)]

/-- C3: overflow with Left alignment. When the clipped top row `r` of `dest` has width
`w ≥ 1`, the text has more than `w` runes, `Align = Left` and `CenterEllipsis = false`,
`DrawLabel` returns normally, the last column `w-1` of `r` holds the ellipsis cell and
column `i` of `r`, for `i < w-1`, holds rune `i` of the text. -/
theorem DrawLabel_overflow_left (b : Buffer) (dest : Rect) (params : LabelParams)
    (text : GoString) (hinv : (b.Cells.length : Int) = b.Width * b.Height)
    (hw : 1 ≤ (clipRow b dest).Width)
    (hov : ((runes text).length : Int) > (clipRow b dest).Width)
    (hA : params.Align = AlignLeft) (hce : params.CenterEllipsis = false) :
    ∃ b', DrawLabel b dest params text = some b' ∧
      b'.cellAt ((clipRow b dest).X + ((clipRow b dest).Width - 1)) (clipRow b dest).Y
        = some (params.cell params.Ellipsis) ∧
      ∀ i : Nat, (i : Int) < (clipRow b dest).Width - 1 →
        ∃ ch, (runes text)[i]? = some ch ∧
          b'.cellAt ((clipRow b dest).X + i) (clipRow b dest).Y = some (params.cell ch) := by
  obtain ⟨b', e, -, -, -, -, hrow, -, -⟩ := DrawLabel_spec b dest params text hinv
  refine ⟨b', e, ?_, fun i hi => ⟨runeAt (runes text) i, ?_, ?_⟩⟩
  · rw [hrow _ (by omega) (by omega)]
    simp [labelRune, hov, hce, hA, paint]
  · exact runeAt_getElem _ _ _ rfl (by omega)
  · rw [hrow _ (by omega) (by omega)]
    have : ¬ ((i : Int) = (clipRow b dest).Width - 1) := by omega
    simp [labelRune, hov, hce, hA, paint, this]

theorem DrawLabel_overflow_left_witness :
    ((exGrid.Cells.length : Int) = exGrid.Width * exGrid.Height ∧
      1 ≤ (clipRow exGrid ⟨0, 1, 5, 1⟩).Width ∧
      ((runes exHello).length : Int) > (clipRow exGrid ⟨0, 1, 5, 1⟩).Width ∧
      (exParams AlignLeft false).Align = AlignLeft ∧
      (exParams AlignLeft false).CenterEllipsis = false) ∧
    ∃ b', DrawLabel exGrid ⟨0, 1, 5, 1⟩ (exParams AlignLeft false) exHello = some b' ∧
      b'.cellAt ((clipRow exGrid ⟨0, 1, 5, 1⟩).X + ((clipRow exGrid ⟨0, 1, 5, 1⟩).Width - 1))
          (clipRow exGrid ⟨0, 1, 5, 1⟩).Y
        = some ((exParams AlignLeft false).cell (exParams AlignLeft false).Ellipsis) ∧
      ∀ i : Nat, (i : Int) < (clipRow exGrid ⟨0, 1, 5, 1⟩).Width - 1 →
        ∃ ch, (runes exHello)[i]? = some ch ∧
          b'.cellAt ((clipRow exGrid ⟨0, 1, 5, 1⟩).X + i) (clipRow exGrid ⟨0, 1, 5, 1⟩).Y
            = some ((exParams AlignLeft false).cell ch) :=
  ⟨⟨by decide, by decide, by decide, rfl, rfl⟩,
    DrawLabel_overflow_left exGrid ⟨0, 1, 5, 1⟩ (exParams AlignLeft false) exHello
      (by decide) (by decide) (by decide) rfl rfl⟩

/-- C4: overflow with Right alignment. When the clipped top row `r` of `dest` has width
`w ≥ 1`, the text has more than `w` runes, `Align = Right` and `CenterEllipsis = false`,
`DrawLabel` returns normally, column 0 of `r` holds the ellipsis cell, columns `1..w-1` hold
the last `w-1` runes of the text in their order, and (when `w > 1`) the last rune of the
text is on column `w-1`. -/
theorem DrawLabel_overflow_right (b : Buffer) (dest : Rect) (params : LabelParams)
    (text : GoString) (hinv : (b.Cells.length : Int) = b.Width * b.Height)
    (hw : 1 ≤ (clipRow b dest).Width)
    (hov : ((runes text).length : Int) > (clipRow b dest).Width)
    (hA : params.Align = AlignRight) (hce : params.CenterEllipsis = false) :
    ∃ b', DrawLabel b dest params text = some b' ∧
      b'.cellAt (clipRow b dest).X (clipRow b dest).Y = some (params.cell params.Ellipsis) ∧
      (∀ k : Nat, (k : Int) < (clipRow b dest).Width - 1 →
        ∃ ch, ((runes text).drop
            ((runes text).length - ((clipRow b dest).Width - 1).toNat))[k]? = some ch ∧
          b'.cellAt ((clipRow b dest).X + 1 + k) (clipRow b dest).Y = some (params.cell ch)) ∧
      (1 < (clipRow b dest).Width →
        ∃ ch, (runes text).getLast? = some ch ∧
          b'.cellAt ((clipRow b dest).X + ((clipRow b dest).Width - 1)) (clipRow b dest).Y
            = some (params.cell ch)) := by
  obtain ⟨b', e, -, -, -, -, hrow, -, -⟩ := DrawLabel_spec b dest params text hinv
  have hLR : ¬ AlignRight = AlignLeft := by decide
  have hCR : ¬ AlignRight = AlignCenter := by decide
  refine ⟨b', e, ?_, fun k hk => ⟨runeAt (runes text)
    ((runes text).length - ((clipRow b dest).Width - (1 + k))), ?_, ?_⟩, fun h1 =>
    ⟨runeAt (runes text) ((runes text).length - ((clipRow b dest).Width
      - ((clipRow b dest).Width - 1))), ?_, ?_⟩⟩
  · have := hrow 0 (by omega) (by omega)
    rw [add_zero] at this
    rw [this]
    simp [labelRune, hov, hce, hA, hLR, hCR, paint]
  · rw [List.getElem?_drop]
    exact runeAt_getElem _ _ _ (by omega) (by omega)
  · rw [add_assoc, hrow _ (by omega) (by omega)]
    have : ¬ ((1 : Int) + k = 0) := by omega
    simp [labelRune, hov, hce, hA, hLR, hCR, paint, this]
  · rw [List.getLast?_eq_getElem?]
    exact runeAt_getElem _ _ _ (by omega) (by omega)
  · rw [hrow _ (by omega) (by omega)]
    have : ¬ ((clipRow b dest).Width - 1 = 0) := by omega
    simp [labelRune, hov, hce, hA, hLR, hCR, paint, this]

theorem DrawLabel_overflow_right_witness :
    ((exGrid.Cells.length : Int) = exGrid.Width * exGrid.Height ∧
      1 ≤ (clipRow exGrid ⟨0, 1, 5, 1⟩).Width ∧
      ((runes exHello).length : Int) > (clipRow exGrid ⟨0, 1, 5, 1⟩).Width ∧
      (exParams AlignRight false).Align = AlignRight ∧
      (exParams AlignRight false).CenterEllipsis = false) ∧
    ∃ b', DrawLabel exGrid ⟨0, 1, 5, 1⟩ (exParams AlignRight false) exHello = some b' ∧
      b'.cellAt (clipRow exGrid ⟨0, 1, 5, 1⟩).X (clipRow exGrid ⟨0, 1, 5, 1⟩).Y
        = some ((exParams AlignRight false).cell (exParams AlignRight false).Ellipsis) ∧
      (∀ k : Nat, (k : Int) < (clipRow exGrid ⟨0, 1, 5, 1⟩).Width - 1 →
        ∃ ch, ((runes exHello).drop
            ((runes exHello).length - ((clipRow exGrid ⟨0, 1, 5, 1⟩).Width - 1).toNat))[k]?
              = some ch ∧
          b'.cellAt ((clipRow exGrid ⟨0, 1, 5, 1⟩).X + 1 + k) (clipRow exGrid ⟨0, 1, 5, 1⟩).Y
            = some ((exParams AlignRight false).cell ch)) ∧
      (1 < (clipRow exGrid ⟨0, 1, 5, 1⟩).Width →
        ∃ ch, (runes exHello).getLast? = some ch ∧
          b'.cellAt ((clipRow exGrid ⟨0, 1, 5, 1⟩).X + ((clipRow exGrid ⟨0, 1, 5, 1⟩).Width - 1))
              (clipRow exGrid ⟨0, 1, 5, 1⟩).Y
            = some ((exParams AlignRight false).cell ch)) :=
  ⟨⟨by decide, by decide, by decide, rfl, rfl⟩,
    DrawLabel_overflow_right exGrid ⟨0, 1, 5, 1⟩ (exParams AlignRight false) exHello
      (by decide) (by decide) (by decide) rfl rfl⟩

/-- C5: overflow with Center alignment and `CenterEllipsis = false`. When the clipped top
row `r` of `dest` has width `w ≥ 3` and the text has `L > w` runes, `DrawLabel` returns
normally, columns 0 and `w-1` of `r` hold the ellipsis cell and column `1 + k`, for
`k < w-2`, holds rune `(L - (w-2)) / 2 + k` of the text (integer division). -/
theorem DrawLabel_overflow_center (b : Buffer) (dest : Rect) (params : LabelParams)
    (text : GoString) (hinv : (b.Cells.length : Int) = b.Width * b.Height)
    (hw : 3 ≤ (clipRow b dest).Width)
    (hov : ((runes text).length : Int) > (clipRow b dest).Width)
    (hA : params.Align = AlignCenter) (hce : params.CenterEllipsis = false) :
    ∃ b', DrawLabel b dest params text = some b' ∧
      b'.cellAt (clipRow b dest).X (clipRow b dest).Y = some (params.cell params.Ellipsis) ∧
      b'.cellAt ((clipRow b dest).X + ((clipRow b dest).Width - 1)) (clipRow b dest).Y
        = some (params.cell params.Ellipsis) ∧
      ∀ k : Nat, (k : Int) < (clipRow b dest).Width - 2 →
        ∃ ch, (runes text)[((runes text).length - ((clipRow b dest).Width - 2).toNat) / 2
            + k]? = some ch ∧
          b'.cellAt ((clipRow b dest).X + 1 + k) (clipRow b dest).Y
            = some (params.cell ch) := by
  obtain ⟨b', e, -, -, -, -, hrow, -, -⟩ := DrawLabel_spec b dest params text hinv
  have hLC : ¬ AlignCenter = AlignLeft := by decide
  refine ⟨b', e, ?_, ?_, fun k hk => ⟨runeAt (runes text)
    ((((runes text).length : Int) - ((clipRow b dest).Width - 2)) / 2 + (1 + k - 1)), ?_, ?_⟩⟩
  · have := hrow 0 (by omega) (by omega)
    rw [add_zero] at this
    rw [this]
    simp [labelRune, hov, hce, hA, hLC, paint]
  · rw [hrow _ (by omega) (by omega)]
    simp [labelRune, hov, hce, hA, hLC, paint]
  · exact runeAt_getElem _ _ _ (by omega) (by omega)
  · rw [add_assoc, hrow _ (by omega) (by omega)]
    have h1 : ¬ ((1 : Int) + k = 0) := by omega
    have h2 : ¬ ((1 : Int) + k = (clipRow b dest).Width - 1) := by omega
    simp [labelRune, hov, hce, hA, hLC, paint, h1, h2]

theorem DrawLabel_overflow_center_witness :
    ((exGrid.Cells.length : Int) = exGrid.Width * exGrid.Height ∧
      3 ≤ (clipRow exGrid ⟨0, 1, 5, 1⟩).Width ∧
      ((runes exHello).length : Int) > (clipRow exGrid ⟨0, 1, 5, 1⟩).Width ∧
      (exParams AlignCenter false).Align = AlignCenter ∧
      (exParams AlignCenter false).CenterEllipsis = false) ∧
    ∃ b', DrawLabel exGrid ⟨0, 1, 5, 1⟩ (exParams AlignCenter false) exHello = some b' ∧
      b'.cellAt (clipRow exGrid ⟨0, 1, 5, 1⟩).X (clipRow exGrid ⟨0, 1, 5, 1⟩).Y
        = some ((exParams AlignCenter false).cell (exParams AlignCenter false).Ellipsis) ∧
      b'.cellAt ((clipRow exGrid ⟨0, 1, 5, 1⟩).X + ((clipRow exGrid ⟨0, 1, 5, 1⟩).Width - 1))
          (clipRow exGrid ⟨0, 1, 5, 1⟩).Y
        = some ((exParams AlignCenter false).cell (exParams AlignCenter false).Ellipsis) ∧
      ∀ k : Nat, (k : Int) < (clipRow exGrid ⟨0, 1, 5, 1⟩).Width - 2 →
        ∃ ch, (runes exHello)[((runes exHello).length
            - ((clipRow exGrid ⟨0, 1, 5, 1⟩).Width - 2).toNat) / 2 + k]? = some ch ∧
          b'.cellAt ((clipRow exGrid ⟨0, 1, 5, 1⟩).X + 1 + k) (clipRow exGrid ⟨0, 1, 5, 1⟩).Y
            = some ((exParams AlignCenter false).cell ch) :=
  ⟨⟨by decide, by decide, by decide, rfl, rfl⟩,
    DrawLabel_overflow_center exGrid ⟨0, 1, 5, 1⟩ (exParams AlignCenter false) exHello
      (by decide) (by decide) (by decide) rfl rfl⟩

/-- C6: overflow with `CenterEllipsis = true`, for every value of `Align`. When the clipped
top row `r` of `dest` has width `w ≥ 1` and the text has more than `w` runes, `DrawLabel`
returns normally, column `w/2` of `r` holds the ellipsis cell, column `i < w/2` holds rune
`i` of the text, and the columns `w/2 + 1 .. w-1` hold the last `w - 1 - w/2` runes of the
text in their order. -/
theorem DrawLabel_overflow_centerEllipsis (b : Buffer) (dest : Rect) (params : LabelParams)
    (text : GoString) (hinv : (b.Cells.length : Int) = b.Width * b.Height)
    (hw : 1 ≤ (clipRow b dest).Width)
    (hov : ((runes text).length : Int) > (clipRow b dest).Width)
    (hce : params.CenterEllipsis = true) :
    ∃ b', DrawLabel b dest params text = some b' ∧
      b'.cellAt ((clipRow b dest).X + (clipRow b dest).Width / 2) (clipRow b dest).Y
        = some (params.cell params.Ellipsis) ∧
      (∀ i : Nat, (i : Int) < (clipRow b dest).Width / 2 →
        ∃ ch, (runes text)[i]? = some ch ∧
          b'.cellAt ((clipRow b dest).X + i) (clipRow b dest).Y = some (params.cell ch)) ∧
      (∀ k : Nat, (k : Int) < (clipRow b dest).Width - 1 - (clipRow b dest).Width / 2 →
        ∃ ch, ((runes text).drop ((runes text).length
            - ((clipRow b dest).Width - 1 - (clipRow b dest).Width / 2).toNat))[k]? = some ch ∧
          b'.cellAt ((clipRow b dest).X + ((clipRow b dest).Width / 2 + 1 + k))
            (clipRow b dest).Y = some (params.cell ch)) := by
  obtain ⟨b', e, -, -, -, -, hrow, -, -⟩ := DrawLabel_spec b dest params text hinv
  refine ⟨b', e, ?_, fun i hi => ⟨runeAt (runes text) i, ?_, ?_⟩, fun k hk =>
    ⟨runeAt (runes text) ((runes text).length
      - ((clipRow b dest).Width - ((clipRow b dest).Width / 2 + 1 + k))), ?_, ?_⟩⟩
  · rw [hrow _ (by omega) (by omega)]
    simp [labelRune, hov, hce, paint]
  · exact runeAt_getElem _ _ _ rfl (by omega)
  · rw [hrow _ (by omega) (by omega)]
    have h1 : ¬ ((i : Int) = (clipRow b dest).Width / 2) := by omega
    simp [labelRune, hov, hce, paint, h1, hi]
  · rw [List.getElem?_drop]
    exact runeAt_getElem _ _ _ (by omega) (by omega)
  · rw [hrow _ (by omega) (by omega)]
    have h1 : ¬ ((clipRow b dest).Width / 2 + 1 + (k : Int) = (clipRow b dest).Width / 2) := by
      omega
    have h2 : ¬ ((clipRow b dest).Width / 2 + 1 + (k : Int) < (clipRow b dest).Width / 2) := by
      omega
    simp [labelRune, hov, hce, paint, h1, h2]

theorem DrawLabel_overflow_centerEllipsis_witness :
    ((exGrid.Cells.length : Int) = exGrid.Width * exGrid.Height ∧
      1 ≤ (clipRow exGrid ⟨0, 1, 5, 1⟩).Width ∧
      ((runes exHello).length : Int) > (clipRow exGrid ⟨0, 1, 5, 1⟩).Width ∧
      (exParams AlignRight true).CenterEllipsis = true) ∧
    ∃ b', DrawLabel exGrid ⟨0, 1, 5, 1⟩ (exParams AlignRight true) exHello = some b' ∧
      b'.cellAt ((clipRow exGrid ⟨0, 1, 5, 1⟩).X + (clipRow exGrid ⟨0, 1, 5, 1⟩).Width / 2)
          (clipRow exGrid ⟨0, 1, 5, 1⟩).Y
        = some ((exParams AlignRight true).cell (exParams AlignRight true).Ellipsis) ∧
      (∀ i : Nat, (i : Int) < (clipRow exGrid ⟨0, 1, 5, 1⟩).Width / 2 →
        ∃ ch, (runes exHello)[i]? = some ch ∧
          b'.cellAt ((clipRow exGrid ⟨0, 1, 5, 1⟩).X + i) (clipRow exGrid ⟨0, 1, 5, 1⟩).Y
            = some ((exParams AlignRight true).cell ch)) ∧
      (∀ k : Nat, (k : Int) < (clipRow exGrid ⟨0, 1, 5, 1⟩).Width - 1
          - (clipRow exGrid ⟨0, 1, 5, 1⟩).Width / 2 →
        ∃ ch, ((runes exHello).drop ((runes exHello).length
            - ((clipRow exGrid ⟨0, 1, 5, 1⟩).Width - 1
              - (clipRow exGrid ⟨0, 1, 5, 1⟩).Width / 2).toNat))[k]? = some ch ∧
          b'.cellAt ((clipRow exGrid ⟨0, 1, 5, 1⟩).X
              + ((clipRow exGrid ⟨0, 1, 5, 1⟩).Width / 2 + 1 + k))
            (clipRow exGrid ⟨0, 1, 5, 1⟩).Y = some ((exParams AlignRight true).cell ch)) :=
  ⟨⟨by decide, by decide, by decide, rfl⟩,
    DrawLabel_overflow_centerEllipsis exGrid ⟨0, 1, 5, 1⟩ (exParams AlignRight true) exHello
      (by decide) (by decide) (by decide) rfl⟩

/-- C7: the fit case. When the clipped top row `r` of `dest` has width `w` and the text
has `L ≤ w` runes, whatever `CenterEllipsis` is, `DrawLabel` returns normally and columns `p .. p+L-1` of `r` hold the runes of the text in order, where `p = 0` for Left,
`p = (w - L) / 2` (integer division) for Center and `p = w - L` for Right; every other
column of `r` keeps its content, so no ellipsis is written. -/
theorem DrawLabel_fit (b : Buffer) (dest : Rect) (params : LabelParams)
    (text : GoString) (p : Int) (hinv : (b.Cells.length : Int) = b.Width * b.Height)
    (hL : ((runes text).length : Int) ≤ (clipRow b dest).Width)
    (hp : (params.Align = AlignLeft ∧ p = 0) ∨
      (params.Align = AlignCenter ∧
        p = ((clipRow b dest).Width - ((runes text).length : Int)) / 2) ∨
      (params.Align = AlignRight ∧ p = (clipRow b dest).Width - ((runes text).length : Int))) :
    ∃ b', DrawLabel b dest params text = some b' ∧
      (∀ k : Nat, k < (runes text).length →
        ∃ ch, (runes text)[k]? = some ch ∧
          b'.cellAt ((clipRow b dest).X + (p + k)) (clipRow b dest).Y
            = some (params.cell ch)) ∧
      (∀ i : Int, 0 ≤ i → i < (clipRow b dest).Width →
        (i < p ∨ p + ((runes text).length : Int) ≤ i) →
        b'.cellAt ((clipRow b dest).X + i) (clipRow b dest).Y
          = b.cellAt ((clipRow b dest).X + i) (clipRow b dest).Y) := by
  obtain ⟨b', e, -, -, -, -, hrow, -, -⟩ := DrawLabel_spec b dest params text hinv
  have hLC : ¬ AlignCenter = AlignLeft := by decide
  have hLR : ¬ AlignRight = AlignLeft := by decide
  have hCR : ¬ AlignRight = AlignCenter := by decide
  have hfit : ¬ ((runes text).length : Int) > (clipRow b dest).Width := by omega
  refine ⟨b', e, fun k hk => ⟨runeAt (runes text) k, runeAt_getElem _ _ _ rfl hk, ?_⟩,
    fun i h0 h1 hout => ?_⟩
  · rcases hp with ⟨hA, rfl⟩ | ⟨hA, rfl⟩ | ⟨hA, rfl⟩
    · rw [hrow _ (by omega) (by omega)]
      simp [labelRune, hfit, hA, paint, hk]
    · rw [hrow _ (by omega) (by omega)]
      have h1 : ((clipRow b dest).Width - ((runes text).length : Int)) / 2 ≤
          ((clipRow b dest).Width - ((runes text).length : Int)) / 2 + (k : Int) := by omega
      simp [labelRune, hfit, hA, hLC, paint, hk]
    · rw [hrow _ (by omega) (by omega)]
      simp [labelRune, hfit, hA, hLR, hCR, paint]
  · rw [hrow i h0 h1]
    rcases hp with ⟨hA, rfl⟩ | ⟨hA, rfl⟩ | ⟨hA, rfl⟩
    · have h2 : ¬ (i < ((runes text).length : Int)) := by omega
      simp [labelRune, hfit, hA, paint, h2]
    · have h2 : ¬ (((clipRow b dest).Width - ((runes text).length : Int)) / 2 ≤ i ∧
          i < ((clipRow b dest).Width - ((runes text).length : Int)) / 2
            + ((runes text).length : Int)) := by omega
      simp only [labelRune, hfit, hA, hLC, if_false, if_true, h2, paint]
    · have h2 : ¬ ((clipRow b dest).Width - ((runes text).length : Int) ≤ i) := by omega
      simp only [labelRune, hfit, hA, hLR, hCR, if_false, if_true, h2, paint]

theorem DrawLabel_fit_witness :
    ((exGrid.Cells.length : Int) = exGrid.Width * exGrid.Height ∧
      ((runes exHi).length : Int) ≤ (clipRow exGrid ⟨0, 1, 5, 1⟩).Width ∧
      (exParams AlignCenter true).Align = AlignCenter ∧
      (1 : Int) = ((clipRow exGrid ⟨0, 1, 5, 1⟩).Width - ((runes exHi).length : Int)) / 2) ∧
    ∃ b', DrawLabel exGrid ⟨0, 1, 5, 1⟩ (exParams AlignCenter true) exHi = some b' ∧
      (∀ k : Nat, k < (runes exHi).length →
        ∃ ch, (runes exHi)[k]? = some ch ∧
          b'.cellAt ((clipRow exGrid ⟨0, 1, 5, 1⟩).X + (1 + k)) (clipRow exGrid ⟨0, 1, 5, 1⟩).Y
            = some ((exParams AlignCenter true).cell ch)) ∧
      (∀ i : Int, 0 ≤ i → i < (clipRow exGrid ⟨0, 1, 5, 1⟩).Width →
        (i < 1 ∨ 1 + ((runes exHi).length : Int) ≤ i) →
        b'.cellAt ((clipRow exGrid ⟨0, 1, 5, 1⟩).X + i) (clipRow exGrid ⟨0, 1, 5, 1⟩).Y
          = exGrid.cellAt ((clipRow exGrid ⟨0, 1, 5, 1⟩).X + i)
              (clipRow exGrid ⟨0, 1, 5, 1⟩).Y) :=
  ⟨⟨by decide, by decide, rfl, by decide⟩,
    DrawLabel_fit exGrid ⟨0, 1, 5, 1⟩ (exParams AlignCenter true) exHi 1
      (by decide) (by decide) (Or.inr (Or.inl ⟨rfl, by decide⟩))⟩

/-- C8: on a grid with `len(Cells) = Width*Height`, `DrawLabel` returns normally, leaves
`Width`, `Height` and the number of cells unchanged, and changes no cell of the grid
outside `Intersection({dest.x, dest.y, dest.width, 1}, Bounds(g))`; in particular no cell
of a row other than `dest.y` is changed, however tall `dest` is. -/
theorem DrawLabel_frame (b : Buffer) (dest : Rect) (params : LabelParams) (text : GoString)
    (hinv : (b.Cells.length : Int) = b.Width * b.Height) :
    ∃ b', DrawLabel b dest params text = some b' ∧ b'.Width = b.Width ∧
      b'.Height = b.Height ∧ b'.Cells.length = b.Cells.length ∧
      (∀ x y : Int, 0 ≤ x → x < b.Width → 0 ≤ y → y < b.Height →
        ¬ ((⟨dest.X, dest.Y, dest.Width, 1⟩ : Rect).Intersection b.Rect).Contains x y →
        b'.cellAt x y = b.cellAt x y) ∧
      (∀ x y : Int, 0 ≤ x → x < b.Width → 0 ≤ y → y < b.Height → y ≠ dest.Y →
        b'.cellAt x y = b.cellAt x y) := by
  obtain ⟨b', e, e1, e2, -, e4, -, hout, -⟩ := DrawLabel_spec b dest params text hinv
  refine ⟨b', e, e1, e2, e4, hout, fun x y h1 h2 h3 h4 hy => ?_⟩
  apply hout x y h1 h2 h3 h4
  intro hc
  rcases clipRow_bounds b dest with he | ⟨-, -, -, hy', -, -, hh, -, -⟩
  · rw [he] at hc
    unfold Rect.Contains at hc
    dsimp only at hc
    omega
  · unfold Rect.Contains at hc
    omega

theorem DrawLabel_frame_witness :
    (exGrid.Cells.length : Int) = exGrid.Width * exGrid.Height ∧
    ∃ b', DrawLabel exGrid ⟨2, 0, 9, 2⟩ (exParams AlignLeft false) exHello = some b' ∧
      b'.Width = exGrid.Width ∧ b'.Height = exGrid.Height ∧
      b'.Cells.length = exGrid.Cells.length ∧
      (∀ x y : Int, 0 ≤ x → x < exGrid.Width → 0 ≤ y → y < exGrid.Height →
        ¬ ((⟨(⟨2, 0, 9, 2⟩ : Rect).X, (⟨2, 0, 9, 2⟩ : Rect).Y, (⟨2, 0, 9, 2⟩ : Rect).Width,
            1⟩ : Rect).Intersection exGrid.Rect).Contains x y →
        b'.cellAt x y = exGrid.cellAt x y) ∧
      (∀ x y : Int, 0 ≤ x → x < exGrid.Width → 0 ≤ y → y < exGrid.Height →
        y ≠ (⟨2, 0, 9, 2⟩ : Rect).Y → b'.cellAt x y = exGrid.cellAt x y) :=
  ⟨by decide, DrawLabel_frame exGrid ⟨2, 0, 9, 2⟩ (exParams AlignLeft false) exHello
    (by decide)⟩

/-- C9, the claim as stated fails: a `dest` of height 0 whose position lies inside the
grid is drawn as its one-row rect, so the grid changes. -/
theorem DrawLabel_zero_height_counterexample :
    (⟨1, 1, 4, 0⟩ : Rect).Height ≤ 0 ∧
    (DrawLabel exGrid ⟨1, 1, 4, 0⟩ (exParams AlignLeft false) exHi).map
        (fun b => b.Cells.map Cell.Ch) = some [0, 0, 0, 0, 0, 0, 72, 105, 0, 0] ∧
    DrawLabel exGrid ⟨1, 1, 4, 0⟩ (exParams AlignLeft false) exHi ≠ some exGrid := by
  decide

/-- C9, amended: `DrawLabel` ignores `dest.height` (it draws the one-row rect
`{x, y, width, 1}` whatever the height is, also when it is zero or negative), and for
every grid, params and text a `dest` with `dest.width ≤ 0` makes `DrawLabel` return
normally with the grid entirely unchanged. -/
theorem DrawLabel_degenerate_dest (b : Buffer) (dest : Rect) (params : LabelParams)
    (text : GoString) :
    DrawLabel b dest params text
        = DrawLabel b ⟨dest.X, dest.Y, dest.Width, 1⟩ params text ∧
      (dest.Width ≤ 0 → DrawLabel b dest params text = some b) := by
  constructor
  · rw [DrawLabel_unfold, DrawLabel_unfold]
    rfl
  · intro hw
    rw [DrawLabel_unfold]
    have : clipRow b dest = ⟨0, 0, 0, 0⟩ := by
      unfold clipRow Rect.Intersection Buffer.Rect
      dsimp only
      rw [if_neg (by omega)]
    rw [this]
    simp

theorem DrawLabel_degenerate_dest_witness :
    (⟨1, 1, -4, 3⟩ : Rect).Width ≤ 0 ∧
    DrawLabel exGrid ⟨1, 1, -4, 3⟩ (exParams AlignLeft false) exHi = some exGrid :=
  ⟨by decide,
    (DrawLabel_degenerate_dest exGrid ⟨1, 1, -4, 3⟩ (exParams AlignLeft false) exHi).2
      (by decide)⟩

/-- C10: on a grid with `len(Cells) = Width*Height`, for every rect, cell, params and byte
string, `Fill` and `DrawLabel` return normally: no assignment to `Cells` inside them or
inside `unsafe_fill`, `draw_n_first_runes`, `draw_n_last_runes` has an index outside
`[0, len(Cells))`, and no string slice in `draw_n_last_runes` and `skip_n_runes` is out of
range (each of these makes the embedded function return `none`). -/
theorem no_index_out_of_range (b : Buffer)
    (hinv : (b.Cells.length : Int) = b.Width * b.Height) :
    (∀ (d : Rect) (proto : Cell), (Fill b d proto).isSome = true) ∧
    (∀ (dest : Rect) (params : LabelParams) (text : GoString),
      (DrawLabel b dest params text).isSome = true) := by
  constructor
  · intro d proto
    obtain ⟨cs', e, -⟩ := Fill_spec b d proto hinv
    rw [e]
    rfl
  · intro dest params text
    obtain ⟨b', e, -⟩ := DrawLabel_spec b dest params text hinv
    rw [e]
    rfl

theorem no_index_out_of_range_witness :
    (exGrid.Cells.length : Int) = exGrid.Width * exGrid.Height ∧
    (∀ (d : Rect) (proto : Cell), (Fill exGrid d proto).isSome = true) ∧
    (∀ (dest : Rect) (params : LabelParams) (text : GoString),
      (DrawLabel exGrid dest params text).isSome = true) :=
  ⟨by decide, no_index_out_of_range exGrid (by decide)⟩

/-- C11, the claim as stated fails: with `newWidth = -1` and `newHeight = 1` the size is
`-1`, which is below the capacity, and the slice expression `this.Cells[:-1]` panics. -/
theorem Resize_negative_counterexample :
    Resize exGrid (-1) 1 = none ∧ Resize exSpare 3 (-1) = none := by
  decide

/-- C11, amended: `Resize(newWidth, newHeight)` returns normally whenever the product
`newWidth*newHeight` is `≥ 0`, in particular whenever both are `≥ 0`, and panics
whenever the product is negative. -/
theorem Resize_returns_iff (b : Buffer) (nw nh : Int) :
    (0 ≤ nw * nh → ∃ b', Resize b nw nh = some b') ∧
    (0 ≤ nw → 0 ≤ nh → ∃ b', Resize b nw nh = some b') ∧
    (nw * nh < 0 → Resize b nw nh = none) := by
  have h1 : 0 ≤ nw * nh → ∃ b', Resize b nw nh = some b' := by
    intro h
    unfold Resize
    dsimp only
    split_ifs
    · exact ⟨_, rfl⟩
    · exact ⟨_, rfl⟩
  refine ⟨h1, fun hw hh => h1 (Int.mul_nonneg hw hh), fun h => ?_⟩
  unfold Resize
  dsimp only
  rw [if_pos (by omega), if_neg (by omega)]

theorem Resize_returns_iff_witness :
    ((0 : Int) ≤ 3 * 4 ∧ ∃ b', Resize exGrid 3 4 = some b') ∧
    ((0 : Int) ≤ 2 ∧ (0 : Int) ≤ 1 ∧ ∃ b', Resize exGrid 2 1 = some b') ∧
    ((-1 : Int) * 1 < 0 ∧ Resize exGrid (-1) 1 = none) :=
  ⟨⟨by decide, (Resize_returns_iff exGrid 3 4).1 (by decide)⟩,
    ⟨by decide, by decide, (Resize_returns_iff exGrid 2 1).2.1 (by decide) (by decide)⟩,
    ⟨by decide, (Resize_returns_iff exGrid (-1) 1).2.2 (by decide)⟩⟩

/-- C12: for every grid and all `w, h ≥ 0`, `Resize(w, h)` returns normally and afterwards
`Rect()` is `{0, 0, w, h}`, both when the storage is reused (`w*h ≤ cap`) and when it is
reallocated. -/
theorem Resize_bounds (b : Buffer) (w h : Int) (hw : 0 ≤ w) (hh : 0 ≤ h) :
    ∃ b', Resize b w h = some b' ∧ b'.Rect = ⟨0, 0, w, h⟩ ∧
      (w * h ≤ ((b.Cells.length + b.Spare.length : Nat) : Int) →
        b'.Cells = (b.Cells ++ b.Spare).take (w * h).toNat) ∧
      (((b.Cells.length + b.Spare.length : Nat) : Int) < w * h →
        b'.Cells = List.replicate (w * h).toNat zeroCell) := by
  have hp : 0 ≤ w * h := Int.mul_nonneg hw hh
  unfold Resize
  dsimp only
  by_cases hc : w * h ≤ ((b.Cells.length + b.Spare.length : Nat) : Int)
  · rw [if_pos hc, if_pos hp]
    exact ⟨_, rfl, rfl, fun _ => rfl, fun h' => absurd hc (by omega)⟩
  · rw [if_neg hc]
    exact ⟨_, rfl, rfl, fun h' => absurd h' hc, fun _ => rfl⟩

theorem Resize_bounds_witness :
    ((0 : Int) ≤ 3 ∧ (0 : Int) ≤ 1) ∧
    ∃ b', Resize exSpare 3 1 = some b' ∧ b'.Rect = ⟨0, 0, 3, 1⟩ ∧
      ((3 : Int) * 1 ≤ ((exSpare.Cells.length + exSpare.Spare.length : Nat) : Int) →
        b'.Cells = (exSpare.Cells ++ exSpare.Spare).take ((3 : Int) * 1).toNat) ∧
      (((exSpare.Cells.length + exSpare.Spare.length : Nat) : Int) < 3 * 1 →
        b'.Cells = List.replicate ((3 : Int) * 1).toNat zeroCell) :=
  ⟨⟨by decide, by decide⟩, Resize_bounds exSpare 3 1 (by decide) (by decide)⟩

/-- C17: for all `w, h ≥ 0`, `NewBuffer(w, h)` returns a grid with `Width = w`,
`Height = h`, bounds `{0, 0, w, h}` and exactly `w*h` cells, each the zero value of
`termbox.Cell` (character 0, attributes 0). -/
theorem NewBuffer_spec (w h : Int) (hw : 0 ≤ w) (hh : 0 ≤ h) :
    ∃ b, NewBuffer w h = some b ∧ b.Width = w ∧ b.Height = h ∧ b.Rect = ⟨0, 0, w, h⟩ ∧
      (b.Cells.length : Int) = w * h ∧ (∀ c ∈ b.Cells, c = zeroCell) ∧
      zeroCell = ⟨0, 0, 0⟩ := by
  have hp : 0 ≤ w * h := Int.mul_nonneg hw hh
  unfold NewBuffer
  rw [if_pos hp]
  refine ⟨_, rfl, rfl, rfl, rfl, ?_, ?_, rfl⟩
  · simp only [List.length_replicate]
    omega
  · intro c hc
    exact List.eq_of_mem_replicate hc

theorem NewBuffer_spec_witness :
    ((0 : Int) ≤ 5 ∧ (0 : Int) ≤ 2) ∧
    ∃ b, NewBuffer 5 2 = some b ∧ b.Width = 5 ∧ b.Height = 2 ∧ b.Rect = ⟨0, 0, 5, 2⟩ ∧
      (b.Cells.length : Int) = 5 * 2 ∧ (∀ c ∈ b.Cells, c = zeroCell) ∧
      zeroCell = ⟨0, 0, 0⟩ :=
  ⟨⟨by decide, by decide⟩, NewBuffer_spec 5 2 (by decide) (by decide)⟩

/-- C16: `len(Cells) = Width*Height` is an invariant of the grid. It holds for
`NewBuffer(w, h)` with `w, h ≥ 0`; `Fill` and `DrawLabel` return normally on a grid that
satisfies it and keep it; `Resize(nw, nh)` with `nw, nh ≥ 0` returns normally and
establishes it from any grid, both in the branch that reuses the storage and in the
branch that reallocates. -/
theorem invariant_preserved (b : Buffer) (w h nw nh : Int) (d dest : Rect) (proto : Cell)
    (params : LabelParams) (text : GoString)
    (hinv : (b.Cells.length : Int) = b.Width * b.Height)
    (hw : 0 ≤ w) (hh : 0 ≤ h) (hnw : 0 ≤ nw) (hnh : 0 ≤ nh) :
    (∃ b', NewBuffer w h = some b' ∧ (b'.Cells.length : Int) = b'.Width * b'.Height) ∧
    (∃ b', Fill b d proto = some b' ∧ (b'.Cells.length : Int) = b'.Width * b'.Height) ∧
    (∃ b', DrawLabel b dest params text = some b' ∧
      (b'.Cells.length : Int) = b'.Width * b'.Height) ∧
    (∀ g : Buffer, ∃ b', Resize g nw nh = some b' ∧
      (b'.Cells.length : Int) = b'.Width * b'.Height ∧
      (nw * nh ≤ ((g.Cells.length + g.Spare.length : Nat) : Int) →
        b'.Cells = (g.Cells ++ g.Spare).take (nw * nh).toNat) ∧
      (((g.Cells.length + g.Spare.length : Nat) : Int) < nw * nh →
        b'.Cells = List.replicate (nw * nh).toNat zeroCell)) := by
  refine ⟨?_, ?_, ?_, fun g => ?_⟩
  · have hp : 0 ≤ w * h := Int.mul_nonneg hw hh
    unfold NewBuffer
    rw [if_pos hp]
    refine ⟨_, rfl, ?_⟩
    simp only [List.length_replicate]
    omega
  · obtain ⟨cs', e1, e2, -⟩ := Fill_spec b d proto hinv
    refine ⟨b.withCells cs', e1, ?_⟩
    rw [withCells_cells, e2, hinv]
    rfl
  · obtain ⟨b', e, e1, e2, -, e4, -⟩ := DrawLabel_spec b dest params text hinv
    refine ⟨b', e, ?_⟩
    rw [e4, e1, e2, hinv]
  · have hp : 0 ≤ nw * nh := Int.mul_nonneg hnw hnh
    unfold Resize
    dsimp only
    by_cases hc : nw * nh ≤ ((g.Cells.length + g.Spare.length : Nat) : Int)
    · rw [if_pos hc, if_pos hp]
      refine ⟨_, rfl, ?_, fun _ => rfl, fun h' => absurd hc (by omega)⟩
      simp only [List.length_take, List.length_append]
      omega
    · rw [if_neg hc]
      refine ⟨_, rfl, ?_, fun h' => absurd h' hc, fun _ => rfl⟩
      simp only [List.length_replicate]
      omega

theorem invariant_preserved_witness :
    ((exGrid.Cells.length : Int) = exGrid.Width * exGrid.Height ∧ (0 : Int) ≤ 5 ∧
      (0 : Int) ≤ 2 ∧ (0 : Int) ≤ 3 ∧ (0 : Int) ≤ 1) ∧
    (∃ b', NewBuffer 5 2 = some b' ∧ (b'.Cells.length : Int) = b'.Width * b'.Height) ∧
    (∃ b', Fill exGrid ⟨3, -1, 7, 2⟩ ⟨65, 1, 2⟩ = some b' ∧
      (b'.Cells.length : Int) = b'.Width * b'.Height) ∧
    (∃ b', DrawLabel exGrid ⟨0, 1, 5, 1⟩ (exParams AlignLeft false) exHello = some b' ∧
      (b'.Cells.length : Int) = b'.Width * b'.Height) ∧
    (∀ g : Buffer, ∃ b', Resize g 3 1 = some b' ∧
      (b'.Cells.length : Int) = b'.Width * b'.Height ∧
      ((3 : Int) * 1 ≤ ((g.Cells.length + g.Spare.length : Nat) : Int) →
        b'.Cells = (g.Cells ++ g.Spare).take ((3 : Int) * 1).toNat) ∧
      (((g.Cells.length + g.Spare.length : Nat) : Int) < 3 * 1 →
        b'.Cells = List.replicate ((3 : Int) * 1).toNat zeroCell)) :=
  ⟨⟨by decide, by decide, by decide, by decide, by decide⟩,
    invariant_preserved exGrid 5 2 3 1 ⟨3, -1, 7, 2⟩ ⟨0, 1, 5, 1⟩ ⟨65, 1, 2⟩
      (exParams AlignLeft false) exHello (by decide) (by decide) (by decide) (by decide)
      (by decide)⟩

/-- C13: on a grid with `len(Cells) = Width*Height`, `DrawLabel` returns normally and every
cell of `Cells` whose value differs from its value before has `Fg = params.Fg`,
`Bg = params.Bg` and a character that is `params.Ellipsis` or one of the runes of the
text. -/
theorem DrawLabel_changed_cells (b : Buffer) (dest : Rect) (params : LabelParams)
    (text : GoString) (hinv : (b.Cells.length : Int) = b.Width * b.Height) :
    ∃ b', DrawLabel b dest params text = some b' ∧
      ∀ j : Nat, b'.Cells[j]? ≠ b.Cells[j]? →
        ∃ c, b'.Cells[j]? = some c ∧ c.Fg = params.Fg ∧ c.Bg = params.Bg ∧
          (c.Ch = params.Ellipsis ∨ c.Ch ∈ runes text) := by
  obtain ⟨cs', e, -, hj⟩ := DrawLabel_index_spec b dest params text hinv
  refine ⟨b.withCells cs', e, fun j hne => ?_⟩
  rw [withCells_cells] at hne ⊢
  rw [hj j] at hne ⊢
  split_ifs at hne ⊢ with hc
  · cases hl : labelRune params (clipRow b dest).Width (runes text)
        ((j : Int) - ((clipRow b dest).Y * b.Width + (clipRow b dest).X)) with
    | none =>
      rw [hl] at hne
      exact absurd rfl hne
    | some ch =>
      refine ⟨params.cell ch, rfl, rfl, rfl, ?_⟩
      exact labelRune_mem params _ _ _ ch (by omega) (by omega) hl
  · exact absurd rfl hne

theorem DrawLabel_changed_cells_witness :
    (exGrid.Cells.length : Int) = exGrid.Width * exGrid.Height ∧
    ∃ b', DrawLabel exGrid ⟨0, 1, 5, 1⟩ (exParams AlignCenter false) exHello = some b' ∧
      ∀ j : Nat, b'.Cells[j]? ≠ exGrid.Cells[j]? →
        ∃ c, b'.Cells[j]? = some c ∧ c.Fg = (exParams AlignCenter false).Fg ∧
          c.Bg = (exParams AlignCenter false).Bg ∧
          (c.Ch = (exParams AlignCenter false).Ellipsis ∨ c.Ch ∈ runes exHello) :=
  ⟨by decide, DrawLabel_changed_cells exGrid ⟨0, 1, 5, 1⟩ (exParams AlignCenter false)
    exHello (by decide)⟩

/-- C18: `DrawLabel` lays the text out against the clipped rectangle:
`DrawLabel(dest, params, text)` is `DrawLabel(r, params, text)` for
`r = Intersection({dest.x, dest.y, dest.width, 1}, Bounds(g))`, on every grid. For
instance a Left label at `x = -2` of width 5 shows the first character of "Hi" at column
0 of the grid. -/
theorem DrawLabel_clipped_dest (b : Buffer) (dest : Rect) (params : LabelParams)
    (text : GoString) :
    DrawLabel b dest params text = DrawLabel b (clipRow b dest) params text ∧
    clipRow b (clipRow b dest) = clipRow b dest ∧
    (DrawLabel exGrid ⟨-2, 0, 5, 1⟩ (exParams AlignLeft false) exHi).map
        (fun g => g.Cells.map Cell.Ch) = some [72, 105, 0, 0, 0, 0, 0, 0, 0, 0] := by
  have hidem : clipRow b (clipRow b dest) = clipRow b dest := by
    rcases clipRow_bounds b dest with he | ⟨hx, hw, hxw, hy, hy0, hyH, hh, -, -⟩
    · rw [he]
      unfold clipRow Rect.Intersection Buffer.Rect
      dsimp only
      rw [if_neg (by omega)]
    · generalize clipRow b dest = r at *
      rcases r with ⟨x, y, w, h⟩
      dsimp only at hx hw hxw hy hh
      subst hh
      unfold clipRow Rect.Intersection Buffer.Rect
      dsimp only
      rw [if_pos (by omega)]
      congr 1 <;> omega
  refine ⟨?_, hidem, by decide⟩
  rw [DrawLabel_unfold, DrawLabel_unfold b (clipRow b dest), hidem]

/-- C15: the degenerate budget. When the text overflows the clipped row `r` of width `w`
and either `w = 1` (with `CenterEllipsis`, or with an alignment of the enumeration) or
`w = 2` with `Align = Center` and `CenterEllipsis = false`, `DrawLabel` returns normally,
every cell of `r` holds the ellipsis cell, and no other cell of the grid changes: no
character of the text is drawn. -/
theorem DrawLabel_degenerate_budget (b : Buffer) (dest : Rect) (params : LabelParams)
    (text : GoString) (hinv : (b.Cells.length : Int) = b.Width * b.Height)
    (hov : ((runes text).length : Int) > (clipRow b dest).Width)
    (hd : ((clipRow b dest).Width = 1 ∧
        (params.CenterEllipsis = true ∨ IsAlignment params.Align)) ∨
      ((clipRow b dest).Width = 2 ∧ params.Align = AlignCenter ∧
        params.CenterEllipsis = false)) :
    ∃ b', DrawLabel b dest params text = some b' ∧
      (∀ i : Int, 0 ≤ i → i < (clipRow b dest).Width →
        b'.cellAt ((clipRow b dest).X + i) (clipRow b dest).Y
          = some (params.cell params.Ellipsis)) ∧
      (∀ x y : Int, 0 ≤ x → x < b.Width → 0 ≤ y → y < b.Height →
        ¬ (clipRow b dest).Contains x y → b'.cellAt x y = b.cellAt x y) := by
  obtain ⟨b', e, -, -, -, -, hrow, hout, -⟩ := DrawLabel_spec b dest params text hinv
  have hLC : ¬ AlignCenter = AlignLeft := by decide
  have hLR : ¬ AlignRight = AlignLeft := by decide
  have hCR : ¬ AlignRight = AlignCenter := by decide
  refine ⟨b', e, fun i h0 h1 => ?_, hout⟩
  rw [hrow i h0 h1]
  rcases hd with ⟨hw, hce | hA | hA | hA⟩ | ⟨hw, hA, hce⟩
  · have hi : i = (clipRow b dest).Width / 2 := by omega
    simp [labelRune, hov, hce, hi, paint]
  · cases hce : params.CenterEllipsis with
    | true =>
      have hi : i = (clipRow b dest).Width / 2 := by omega
      simp [labelRune, hov, hce, hi, paint]
    | false =>
      have hi : i = (clipRow b dest).Width - 1 := by omega
      simp [labelRune, hov, hce, hA, hi, paint]
  · cases hce : params.CenterEllipsis with
    | true =>
      have hi : i = (clipRow b dest).Width / 2 := by omega
      simp [labelRune, hov, hce, hi, paint]
    | false =>
      have hi : i = 0 := by omega
      simp [labelRune, hov, hce, hA, hLC, hi, paint]
  · cases hce : params.CenterEllipsis with
    | true =>
      have hi : i = (clipRow b dest).Width / 2 := by omega
      simp [labelRune, hov, hce, hi, paint]
    | false =>
      have hi : i = 0 := by omega
      simp [labelRune, hov, hce, hA, hLR, hCR, hi, paint]
  · have hi : i = 0 ∨ i = (clipRow b dest).Width - 1 := by omega
    simp [labelRune, hov, hce, hA, hLC, hi, paint]

theorem DrawLabel_degenerate_budget_witness :
    ((exGrid.Cells.length : Int) = exGrid.Width * exGrid.Height ∧
      ((runes exHello).length : Int) > (clipRow exGrid ⟨3, 1, 2, 1⟩).Width ∧
      (clipRow exGrid ⟨3, 1, 2, 1⟩).Width = 2 ∧
      (exParams AlignCenter false).Align = AlignCenter ∧
      (exParams AlignCenter false).CenterEllipsis = false) ∧
    ∃ b', DrawLabel exGrid ⟨3, 1, 2, 1⟩ (exParams AlignCenter false) exHello = some b' ∧
      (∀ i : Int, 0 ≤ i → i < (clipRow exGrid ⟨3, 1, 2, 1⟩).Width →
        b'.cellAt ((clipRow exGrid ⟨3, 1, 2, 1⟩).X + i) (clipRow exGrid ⟨3, 1, 2, 1⟩).Y
          = some ((exParams AlignCenter false).cell (exParams AlignCenter false).Ellipsis)) ∧
      (∀ x y : Int, 0 ≤ x → x < exGrid.Width → 0 ≤ y → y < exGrid.Height →
        ¬ (clipRow exGrid ⟨3, 1, 2, 1⟩).Contains x y →
        b'.cellAt x y = exGrid.cellAt x y) :=
  ⟨⟨by decide, by decide, by decide, rfl, rfl⟩,
    DrawLabel_degenerate_budget exGrid ⟨3, 1, 2, 1⟩ (exParams AlignCenter false) exHello
      (by decide) (by decide) (Or.inr ⟨by decide, rfl, rfl⟩)⟩

/-- C19: in the overflow case the whole clipped row is repainted. When the text has more
runes than the width `w` of the clipped row `r`, for `CenterEllipsis = true` or an
alignment of the enumeration, `DrawLabel` returns normally and every one of the `w` cells
of `r` has `Fg = params.Fg`, `Bg = params.Bg` and a character that is the ellipsis or a
rune of the text; and the row does not depend on what the grid held before: on any grid
of the same size the call leaves the same row. -/
theorem DrawLabel_overflow_repaints (b : Buffer) (dest : Rect) (params : LabelParams)
    (text : GoString) (hinv : (b.Cells.length : Int) = b.Width * b.Height)
    (hov : ((runes text).length : Int) > (clipRow b dest).Width)
    (ha : params.CenterEllipsis = true ∨ IsAlignment params.Align) :
    ∃ b', DrawLabel b dest params text = some b' ∧
      (∀ i : Int, 0 ≤ i → i < (clipRow b dest).Width →
        ∃ c, b'.cellAt ((clipRow b dest).X + i) (clipRow b dest).Y = some c ∧
          c.Fg = params.Fg ∧ c.Bg = params.Bg ∧
          (c.Ch = params.Ellipsis ∨ c.Ch ∈ runes text)) ∧
      (∀ g : Buffer, g.Width = b.Width → g.Height = b.Height →
        g.Cells.length = b.Cells.length →
        ∃ g', DrawLabel g dest params text = some g' ∧
          ∀ i : Int, 0 ≤ i → i < (clipRow b dest).Width →
            g'.cellAt ((clipRow b dest).X + i) (clipRow b dest).Y
              = b'.cellAt ((clipRow b dest).X + i) (clipRow b dest).Y) := by
  obtain ⟨b', e, -, -, -, -, hrow, -, -⟩ := DrawLabel_spec b dest params text hinv
  have hpaint : ∀ (old : Option Cell) (i : Int), 0 ≤ i → i < (clipRow b dest).Width →
      ∃ ch, paint params old (labelRune params (clipRow b dest).Width (runes text) i)
          = some (params.cell ch) ∧ (ch = params.Ellipsis ∨ ch ∈ runes text) := by
    intro old i h0 h1
    obtain ⟨ch, hch⟩ := labelRune_overflow params (clipRow b dest).Width (runes text) i
      hov ha
    exact ⟨ch, by rw [hch]; rfl, labelRune_mem params _ _ _ ch h0 h1 hch⟩
  refine ⟨b', e, fun i h0 h1 => ?_, fun g gW gH gL => ?_⟩
  · obtain ⟨ch, hp, hm⟩ := hpaint (b.cellAt ((clipRow b dest).X + i) (clipRow b dest).Y) i
      h0 h1
    exact ⟨params.cell ch, by rw [hrow i h0 h1, hp], rfl, rfl, hm⟩
  · have hclip : clipRow g dest = clipRow b dest := by
      unfold clipRow Buffer.Rect
      rw [gW, gH]
    obtain ⟨g', eg, -, -, -, -, grow, -, -⟩ := DrawLabel_spec g dest params text
      (by rw [gL, gW, gH, hinv])
    rw [hclip] at grow
    refine ⟨g', eg, fun i h0 h1 => ?_⟩
    obtain ⟨ch, hch⟩ := labelRune_overflow params (clipRow b dest).Width (runes text) i
      hov ha
    rw [grow i h0 h1, hrow i h0 h1, hch]
    rfl

theorem DrawLabel_overflow_repaints_witness :
    ((exGrid.Cells.length : Int) = exGrid.Width * exGrid.Height ∧
      ((runes exHello).length : Int) > (clipRow exGrid ⟨0, 1, 5, 1⟩).Width ∧
      IsAlignment (exParams AlignRight false).Align) ∧
    ∃ b', DrawLabel exGrid ⟨0, 1, 5, 1⟩ (exParams AlignRight false) exHello = some b' ∧
      (∀ i : Int, 0 ≤ i → i < (clipRow exGrid ⟨0, 1, 5, 1⟩).Width →
        ∃ c, b'.cellAt ((clipRow exGrid ⟨0, 1, 5, 1⟩).X + i)
            (clipRow exGrid ⟨0, 1, 5, 1⟩).Y = some c ∧
          c.Fg = (exParams AlignRight false).Fg ∧ c.Bg = (exParams AlignRight false).Bg ∧
          (c.Ch = (exParams AlignRight false).Ellipsis ∨ c.Ch ∈ runes exHello)) ∧
      (∀ g : Buffer, g.Width = exGrid.Width → g.Height = exGrid.Height →
        g.Cells.length = exGrid.Cells.length →
        ∃ g', DrawLabel g ⟨0, 1, 5, 1⟩ (exParams AlignRight false) exHello = some g' ∧
          ∀ i : Int, 0 ≤ i → i < (clipRow exGrid ⟨0, 1, 5, 1⟩).Width →
            g'.cellAt ((clipRow exGrid ⟨0, 1, 5, 1⟩).X + i) (clipRow exGrid ⟨0, 1, 5, 1⟩).Y
              = b'.cellAt ((clipRow exGrid ⟨0, 1, 5, 1⟩).X + i)
                  (clipRow exGrid ⟨0, 1, 5, 1⟩).Y) :=
  ⟨⟨by decide, by decide, Or.inr (Or.inr rfl)⟩,
    DrawLabel_overflow_repaints exGrid ⟨0, 1, 5, 1⟩ (exParams AlignRight false) exHello
      (by decide) (by decide) (Or.inr (Or.inr (Or.inr rfl)))⟩

/-- C20: in the fit case `DrawLabel` does not clear padding. When the text has `L ≤ w`
runes, `w` the width of the clipped row `r`, `DrawLabel` returns normally; with the text
on columns `p .. p+L-1` (`p = 0` for Left, `(w - L) / 2` for Center, `w - L` for Right)
every other column of `r` keeps its cell, for an alignment outside the enumeration the
buffer is unchanged, no cell of the grid outside `r` changes, and an empty text leaves
the buffer entirely unchanged. -/
theorem DrawLabel_fit_keeps_padding (b : Buffer) (dest : Rect) (params : LabelParams)
    (text : GoString) (hinv : (b.Cells.length : Int) = b.Width * b.Height)
    (hL : ((runes text).length : Int) ≤ (clipRow b dest).Width) :
    ∃ b', DrawLabel b dest params text = some b' ∧
      (∀ p : Int, ((params.Align = AlignLeft ∧ p = 0) ∨
          (params.Align = AlignCenter ∧
            p = ((clipRow b dest).Width - ((runes text).length : Int)) / 2) ∨
          (params.Align = AlignRight ∧
            p = (clipRow b dest).Width - ((runes text).length : Int))) →
        ∀ i : Int, 0 ≤ i → i < (clipRow b dest).Width →
          (i < p ∨ p + ((runes text).length : Int) ≤ i) →
          b'.cellAt ((clipRow b dest).X + i) (clipRow b dest).Y
            = b.cellAt ((clipRow b dest).X + i) (clipRow b dest).Y) ∧
      (¬ IsAlignment params.Align → b' = b) ∧
      (∀ x y : Int, 0 ≤ x → x < b.Width → 0 ≤ y → y < b.Height →
        ¬ (clipRow b dest).Contains x y → b'.cellAt x y = b.cellAt x y) ∧
      (runes text = [] → b' = b) := by
  have hLC : ¬ AlignCenter = AlignLeft := by decide
  have hLR : ¬ AlignRight = AlignLeft := by decide
  have hCR : ¬ AlignRight = AlignCenter := by decide
  have hfit : ¬ ((runes text).length : Int) > (clipRow b dest).Width := by omega
  obtain ⟨b', e, -, -, -, -, hrow, hout, -⟩ := DrawLabel_spec b dest params text hinv
  obtain ⟨cs', e', l', hj⟩ := DrawLabel_index_spec b dest params text hinv
  have hb : b' = b.withCells cs' := by
    rw [e] at e'
    exact Option.some.inj e'
  have hsame : (∀ i : Int, 0 ≤ i → i < (clipRow b dest).Width →
      labelRune params (clipRow b dest).Width (runes text) i = none) → b' = b := by
    intro hnone
    rw [hb]
    have : cs' = b.Cells := by
      apply List.ext_getElem?
      intro j
      rw [hj j]
      split_ifs with hc
      · rw [hnone _ (by omega) (by omega)]
        rfl
      · rfl
    rw [this]
    rfl
  refine ⟨b', e, fun p hp i h0 h1 hout' => ?_, fun hna => ?_, hout, fun hnil => ?_⟩
  · rw [hrow i h0 h1]
    rcases hp with ⟨hA, rfl⟩ | ⟨hA, rfl⟩ | ⟨hA, rfl⟩
    · have h2 : ¬ (i < ((runes text).length : Int)) := by omega
      simp only [labelRune, hfit, hA, if_false, if_true, h2, paint]
    · have h2 : ¬ (((clipRow b dest).Width - ((runes text).length : Int)) / 2 ≤ i ∧
          i < ((clipRow b dest).Width - ((runes text).length : Int)) / 2
            + ((runes text).length : Int)) := by omega
      simp only [labelRune, hfit, hA, hLC, if_false, if_true, h2, paint]
    · have h2 : ¬ ((clipRow b dest).Width - ((runes text).length : Int) ≤ i) := by omega
      simp only [labelRune, hfit, hA, hLR, hCR, if_false, if_true, h2, paint]
  · apply hsame
    intro i _ _
    have h1 : ¬ params.Align = AlignLeft := fun h => hna (Or.inl h)
    have h2 : ¬ params.Align = AlignCenter := fun h => hna (Or.inr (Or.inl h))
    have h3 : ¬ params.Align = AlignRight := fun h => hna (Or.inr (Or.inr h))
    simp only [labelRune, hfit, h1, h2, h3, if_false]
  · apply hsame
    intro i h0 h1
    unfold labelRune
    rw [hnil] at hfit ⊢
    simp only [List.length_nil, Nat.cast_zero] at hfit ⊢
    rw [if_neg hfit]
    split_ifs <;> first | rfl | (exfalso; omega)

theorem DrawLabel_fit_keeps_padding_witness :
    ((exGrid.Cells.length : Int) = exGrid.Width * exGrid.Height ∧
      ((runes exHi).length : Int) ≤ (clipRow exGrid ⟨0, 1, 5, 1⟩).Width) ∧
    ∃ b', DrawLabel exGrid ⟨0, 1, 5, 1⟩ (exParams AlignCenter true) exHi = some b' ∧
      (∀ p : Int, (((exParams AlignCenter true).Align = AlignLeft ∧ p = 0) ∨
          ((exParams AlignCenter true).Align = AlignCenter ∧
            p = ((clipRow exGrid ⟨0, 1, 5, 1⟩).Width - ((runes exHi).length : Int)) / 2) ∨
          ((exParams AlignCenter true).Align = AlignRight ∧
            p = (clipRow exGrid ⟨0, 1, 5, 1⟩).Width - ((runes exHi).length : Int))) →
        ∀ i : Int, 0 ≤ i → i < (clipRow exGrid ⟨0, 1, 5, 1⟩).Width →
          (i < p ∨ p + ((runes exHi).length : Int) ≤ i) →
          b'.cellAt ((clipRow exGrid ⟨0, 1, 5, 1⟩).X + i) (clipRow exGrid ⟨0, 1, 5, 1⟩).Y
            = exGrid.cellAt ((clipRow exGrid ⟨0, 1, 5, 1⟩).X + i)
                (clipRow exGrid ⟨0, 1, 5, 1⟩).Y) ∧
      (¬ IsAlignment (exParams AlignCenter true).Align → b' = exGrid) ∧
      (∀ x y : Int, 0 ≤ x → x < exGrid.Width → 0 ≤ y → y < exGrid.Height →
        ¬ (clipRow exGrid ⟨0, 1, 5, 1⟩).Contains x y →
        b'.cellAt x y = exGrid.cellAt x y) ∧
      (runes exHi = [] → b' = exGrid) :=
  ⟨⟨by decide, by decide⟩,
    DrawLabel_fit_keeps_padding exGrid ⟨0, 1, 5, 1⟩ (exParams AlignCenter true) exHi
      (by decide) (by decide)⟩

/-- The rune at position `k` of a list of scalar values read as runes. -/
theorem runeAt_map (cs : List Nat) (k : Nat) (s : Nat) (i : Int) (hi : i = (k : Int))
    (h : cs[k]? = some s) :
    runeAt (List.map (fun c : Nat => Int.ofNat c) cs) i = (s : Int) := by
  have hk : k < cs.length := by
    rcases Nat.lt_or_ge k cs.length with h1 | h1
    · exact h1
    · rw [List.getElem?_eq_none h1] at h
      cases h
  have h1 := runeAt_getElem (List.map (fun c : Nat => Int.ofNat c) cs) k i hi
    (by rw [List.length_map]; exact hk)
  rw [List.getElem?_map, h] at h1
  exact (Option.some.inj h1).symm

/-- C14: overflow is decided by the number of scalar values of the text, not by its
number of bytes. For the well-formed UTF-8 text of the scalar values `cs` and the clipped
row `r` of width `w`: when `cs` has at most `w` elements, whatever the byte length,
`DrawLabel` returns normally, column `p + k` of `r` holds the cell of the whole scalar value
`cs[k]` for every `k` (`p = 0` for Left, `(w - L) / 2` for Center, `w - L` for Right) and
every other column of `r` keeps its cell, so no ellipsis is written; when `cs` has more
than `w` elements, `DrawLabel` returns normally and every cell of `Cells` that changes
holds `params.Ellipsis` or one whole scalar value of `cs`. -/
theorem DrawLabel_utf8 (b : Buffer) (dest : Rect) (params : LabelParams) (cs : List Nat)
    (hinv : (b.Cells.length : Int) = b.Width * b.Height) (hcs : ∀ c ∈ cs, IsScalar c) :
    ((cs.length : Int) ≤ (clipRow b dest).Width →
      ∀ p : Int, ((params.Align = AlignLeft ∧ p = 0) ∨
          (params.Align = AlignCenter ∧ p = ((clipRow b dest).Width - (cs.length : Int)) / 2) ∨
          (params.Align = AlignRight ∧ p = (clipRow b dest).Width - (cs.length : Int))) →
        ∃ b', DrawLabel b dest params (utf8 cs) = some b' ∧
          (∀ k : Nat, k < cs.length →
            ∃ s, cs[k]? = some s ∧
              b'.cellAt ((clipRow b dest).X + (p + k)) (clipRow b dest).Y
                = some (params.cell (s : Int))) ∧
          (∀ i : Int, 0 ≤ i → i < (clipRow b dest).Width →
            (i < p ∨ p + (cs.length : Int) ≤ i) →
            b'.cellAt ((clipRow b dest).X + i) (clipRow b dest).Y
              = b.cellAt ((clipRow b dest).X + i) (clipRow b dest).Y)) ∧
    ((cs.length : Int) > (clipRow b dest).Width →
      ∃ b', DrawLabel b dest params (utf8 cs) = some b' ∧
        ∀ j : Nat, b'.Cells[j]? ≠ b.Cells[j]? →
          ∃ c, b'.Cells[j]? = some c ∧
            (c.Ch = params.Ellipsis ∨ ∃ s ∈ cs, c.Ch = (s : Int))) := by
  have hr := runes_utf8 cs hcs
  have hlen : (List.map (fun c : Nat => Int.ofNat c) cs).length = cs.length :=
    List.length_map _ _
  constructor
  · intro hL p hp
    obtain ⟨b', e, -, -, -, -, hrow, -, -⟩ := DrawLabel_spec b dest params (utf8 cs) hinv
    rw [hr] at hrow
    have hAt : ∀ (k s : Nat) (i : Int), i = (k : Int) → cs[k]? = some s →
        runeAt (List.map (fun c : Nat => Int.ofNat c) cs) i = (s : Int) :=
      fun k s i hi h => runeAt_map cs k s i hi h
    generalize List.map (fun c : Nat => Int.ofNat c) cs = rs at hrow hlen hAt
    have hLC : ¬ AlignCenter = AlignLeft := by decide
    have hLR : ¬ AlignRight = AlignLeft := by decide
    have hCR : ¬ AlignRight = AlignCenter := by decide
    have hfit : ¬ (rs.length : Int) > (clipRow b dest).Width := by omega
    have hfit2 : ¬ (cs.length : Int) > (clipRow b dest).Width := by omega
    refine ⟨b', e, fun k hk => ?_, fun i h0 h1 hout => ?_⟩
    · obtain ⟨s, hs⟩ : ∃ s, cs[k]? = some s := ⟨cs[k], List.getElem?_eq_getElem hk⟩
      refine ⟨s, hs, ?_⟩
      rcases hp with ⟨hA, rfl⟩ | ⟨hA, rfl⟩ | ⟨hA, rfl⟩
      · rw [hrow _ (by omega) (by omega)]
        have h2 : (0 : Int) + k < rs.length := by omega
        simp only [labelRune, hfit, hA, if_false, if_true, h2, paint]
        rw [hAt k s _ (by omega) hs]
      · rw [hrow _ (by omega) (by omega)]
        have h2 : ((clipRow b dest).Width - (cs.length : Int)) / 2 ≤
              ((clipRow b dest).Width - (cs.length : Int)) / 2 + (k : Int) ∧
            ((clipRow b dest).Width - (cs.length : Int)) / 2 + (k : Int) <
              ((clipRow b dest).Width - (cs.length : Int)) / 2 + (rs.length : Int) := by
          omega
        have h3 : (rs.length : Int) = cs.length := by omega
        simp only [labelRune, hfit, hfit2, hA, hLC, if_false, if_true, h3]
        rw [h3] at h2
        simp only [h2, and_self, if_true, paint]
        rw [hAt k s _ (by omega) hs]
      · rw [hrow _ (by omega) (by omega)]
        have h3 : (rs.length : Int) = cs.length := by omega
        have h2 : (clipRow b dest).Width - (cs.length : Int) ≤
            (clipRow b dest).Width - (cs.length : Int) + (k : Int) := by omega
        simp only [labelRune, hfit, hfit2, hA, hLR, hCR, if_false, if_true, h3, h2, paint]
        rw [hAt k s _ (by omega) hs]
    · rw [hrow i h0 h1]
      have h3 : (rs.length : Int) = cs.length := by omega
      rcases hp with ⟨hA, rfl⟩ | ⟨hA, rfl⟩ | ⟨hA, rfl⟩
      · have h2 : ¬ (i < (cs.length : Int)) := by omega
        simp only [labelRune, hfit, hfit2, hA, if_false, if_true, h3, h2, paint]
      · have h2 : ¬ (((clipRow b dest).Width - (cs.length : Int)) / 2 ≤ i ∧
            i < ((clipRow b dest).Width - (cs.length : Int)) / 2 + (cs.length : Int)) := by
          omega
        simp only [labelRune, hfit, hfit2, hA, hLC, if_false, if_true, h3, h2, paint]
      · have h2 : ¬ ((clipRow b dest).Width - (cs.length : Int) ≤ i) := by omega
        simp only [labelRune, hfit, hfit2, hA, hLR, hCR, if_false, if_true, h3, h2, paint]
  · intro hov
    obtain ⟨cs', e, -, hj⟩ := DrawLabel_index_spec b dest params (utf8 cs) hinv
    rw [hr] at hj
    refine ⟨b.withCells cs', e, fun j hne => ?_⟩
    rw [withCells_cells] at hne ⊢
    rw [hj j] at hne ⊢
    split_ifs at hne ⊢ with hc
    · cases hl : labelRune params (clipRow b dest).Width
          (List.map (fun c : Nat => Int.ofNat c) cs)
          ((j : Int) - ((clipRow b dest).Y * b.Width + (clipRow b dest).X)) with
      | none =>
        rw [hl] at hne
        exact absurd rfl hne
      | some ch =>
        refine ⟨params.cell ch, rfl, ?_⟩
        rcases labelRune_mem params _ _ _ ch (by omega) (by omega) hl with h1 | h1
        · exact Or.inl h1
        · right
          obtain ⟨s, hs, hs'⟩ := List.mem_map.mp h1
          exact ⟨s, hs, hs'.symm⟩
    · exact absurd rfl hne

theorem DrawLabel_utf8_witness :
    (exGrid.Cells.length : Int) = exGrid.Width * exGrid.Height ∧
    (∀ c ∈ [0xE9, 0x2026, 0x1F600], IsScalar c) ∧
    (utf8 [0xE9, 0x2026, 0x1F600]).length = 9 ∧
    (DrawLabel exGrid ⟨0, 1, 5, 1⟩ (exParams AlignLeft false)
        (utf8 [0xE9, 0x2026, 0x1F600])).map (fun g => g.Cells.map Cell.Ch)
      = some [0, 0, 0, 0, 0, 0xE9, 0x2026, 0x1F600, 0, 0] ∧
    (((([0xE9, 0x2026, 0x1F600] : List Nat).length : Int)
        ≤ (clipRow exGrid ⟨0, 1, 5, 1⟩).Width →
      ∀ p : Int, (((exParams AlignLeft false).Align = AlignLeft ∧ p = 0) ∨
          ((exParams AlignLeft false).Align = AlignCenter ∧
            p = ((clipRow exGrid ⟨0, 1, 5, 1⟩).Width
              - (([0xE9, 0x2026, 0x1F600] : List Nat).length : Int)) / 2) ∨
          ((exParams AlignLeft false).Align = AlignRight ∧
            p = (clipRow exGrid ⟨0, 1, 5, 1⟩).Width
              - (([0xE9, 0x2026, 0x1F600] : List Nat).length : Int))) →
        ∃ b', DrawLabel exGrid ⟨0, 1, 5, 1⟩ (exParams AlignLeft false)
            (utf8 [0xE9, 0x2026, 0x1F600]) = some b' ∧
          (∀ k : Nat, k < ([0xE9, 0x2026, 0x1F600] : List Nat).length →
            ∃ s, ([0xE9, 0x2026, 0x1F600] : List Nat)[k]? = some s ∧
              b'.cellAt ((clipRow exGrid ⟨0, 1, 5, 1⟩).X + (p + k))
                  (clipRow exGrid ⟨0, 1, 5, 1⟩).Y
                = some ((exParams AlignLeft false).cell (s : Int))) ∧
          (∀ i : Int, 0 ≤ i → i < (clipRow exGrid ⟨0, 1, 5, 1⟩).Width →
            (i < p ∨ p + (([0xE9, 0x2026, 0x1F600] : List Nat).length : Int) ≤ i) →
            b'.cellAt ((clipRow exGrid ⟨0, 1, 5, 1⟩).X + i) (clipRow exGrid ⟨0, 1, 5, 1⟩).Y
              = exGrid.cellAt ((clipRow exGrid ⟨0, 1, 5, 1⟩).X + i)
                  (clipRow exGrid ⟨0, 1, 5, 1⟩).Y)) ∧
      ((([0xE9, 0x2026, 0x1F600] : List Nat).length : Int)
          > (clipRow exGrid ⟨0, 1, 5, 1⟩).Width →
        ∃ b', DrawLabel exGrid ⟨0, 1, 5, 1⟩ (exParams AlignLeft false)
            (utf8 [0xE9, 0x2026, 0x1F600]) = some b' ∧
          ∀ j : Nat, b'.Cells[j]? ≠ exGrid.Cells[j]? →
            ∃ c, b'.Cells[j]? = some c ∧
              (c.Ch = (exParams AlignLeft false).Ellipsis ∨
                ∃ s ∈ ([0xE9, 0x2026, 0x1F600] : List Nat), c.Ch = (s : Int)))) :=
  have hs : ∀ c ∈ [0xE9, 0x2026, 0x1F600], IsScalar c := by
    intro c hc
    simp only [List.mem_cons, List.mem_singleton, List.not_mem_nil, or_false] at hc
    rcases hc with rfl | rfl | rfl <;> unfold IsScalar <;> omega
  ⟨by decide, hs, by decide, by decide,
    DrawLabel_utf8 exGrid ⟨0, 1, 5, 1⟩ (exParams AlignLeft false) [0xE9, 0x2026, 0x1F600]
      (by decide) hs⟩

end Tulib
